import Mathlib

/-!
Verification development for the geosuggest core engine
(crate geosuggest-core: src/lib.rs and src/storage.rs).

The Rust code is shallowly embedded:
- machine floats (f32) are modelled exactly by the rationals ℚ;
- external crates are modelled by their documented contracts:
  the strsim Jaro-Winkler similarity is an abstract parameter
  `jw : String → String → ℚ`, and the kiddo immutable K-D tree
  `nearest_n` query is modelled as sorting all stored points by squared
  Euclidean distance (stable on ties) and taking the first `n`;
- Rust HashMap values are modelled as association lists with
  insert-overwrite (`aupsert`) and first-match lookup (`alookup`);
- `sort_unstable_by` is modelled by a deterministic insertion sort
  driven by the same comparator (`sortByLe`);
- rayon parallel iteration is modelled sequentially: rayon preserves
  the order of the underlying sequence under `collect`/ordered `reduce`.
-/

/-- Association-list lookup: first pair whose key matches, as Rust HashMap get. -/
def alookup {K V : Type} [DecidableEq K] : List (K × V) → K → Option V
  | [], _ => none
  | (k, v) :: t, q => if k = q then some v else alookup t q

/-- Association-list insert with overwrite, as Rust HashMap insert. -/
def aupsert {K V : Type} [DecidableEq K] (k : K) (v : V) : List (K × V) → List (K × V)
  | [] => [(k, v)]
  | (k2, v2) :: t => if k2 = k then (k, v) :: t else (k2, v2) :: aupsert k v t

/-- Association-list key removal, as Rust HashMap remove. -/
def aerase {K V : Type} [DecidableEq K] (k : K) : List (K × V) → List (K × V)
  | [] => []
  | (k2, v2) :: t => if k2 = k then t else (k2, v2) :: aerase k t

/-- Insert an element into a list before the first element it is `le` to. -/
def insertSorted {A : Type} (le : A → A → Bool) (a : A) : List A → List A
  | [] => [a]
  | b :: l => if le a b then a :: b :: l else b :: insertSorted le a l

/-- Insertion sort by a boolean comparator; deterministic model of
Rust `sort_unstable_by` (the algorithm itself is unspecified in Rust). -/
def sortByLe {A : Type} (le : A → A → Bool) : List A → List A
  | [] => []
  | a :: l => insertSorted le a (sortByLe le l)

/-- Keep the first element carrying each key, as itertools `unique_by`. -/
def uniqueBy {A : Type} (key : A → Nat) (seen : List Nat) : List A → List A
  | [] => []
  | a :: l => if key a ∈ seen then uniqueBy key seen l
              else a :: uniqueBy key (key a :: seen) l

/-- Remove all but the first of consecutive elements with equal key,
as Rust `Vec::dedup_by_key`. -/
def dedupAdjBy {A : Type} (key : A → Nat) : List A → List A
  | [] => []
  | [a] => [a]
  | a :: b :: l =>
      if key b = key a then dedupAdjBy key (a :: l) else a :: dedupAdjBy key (b :: l)

/-- Pair every element with its position, starting from `i`. -/
def enumFrom {A : Type} (i : Nat) : List A → List (Nat × A)
  | [] => []
  | a :: l => (i, a) :: enumFrom (i + 1) l

/-- Split a character list at every occurrence of `sep`
(`n` separators yield `n + 1` pieces). -/
def splitChar (sep : Char) : List Char → List (List Char)
  | [] => [[]]
  | x :: xs =>
      match splitChar sep xs with
      | [] => [[x]]
      | p :: ps => if x = sep then [] :: p :: ps else (x :: p) :: ps

/-- Fuelled worker for `chunksOf`; the fuel is the list length, which
bounds the number of chunks since every chunk is nonempty. -/
def chunksOfGo {A : Type} (n : Nat) : Nat → List A → List (List A)
  | _, [] => []
  | 0, l => [l]
  | fuel + 1, x :: xs => ((x :: xs).take n) :: chunksOfGo n fuel ((x :: xs).drop n)

/-- Chunks of `n` consecutive elements, as Rust `slice::chunks(n)`;
`n = 0` is unreachable at the call sites (guarded by the caller). -/
def chunksOf {A : Type} (n : Nat) (l : List A) : List (List A) :=
  match n, l with
  | _, [] => []
  | 0, l => [l]
  | n + 1, l => chunksOfGo (n + 1) l.length l

/-- Lowercase a string character-wise, modelling Rust `str::to_lowercase`. -/
def strLower (s : String) : String := String.mk (s.data.map Char.toLower)

/-- Uppercase a string character-wise, modelling Rust `str::to_uppercase`. -/
def strUpper (s : String) : String := String.mk (s.data.map Char.toUpper)

/-- Boolean string-prefix test on character lists. -/
def listStarts : List Char → List Char → Bool
  | _, [] => true
  | [], _ :: _ => false
  | a :: v, b :: p => a = b && listStarts v p

/-- Does `v` start with `p`, modelling Rust `str::starts_with`. -/
def strStarts (v p : String) : Bool := listStarts v.data p.data

/-- Rust `str::lines`: split at newlines, strip one trailing carriage
return per line, drop the final empty piece produced by a trailing newline. -/
def linesOf (s : String) : List String :=
  let parts := (splitChar '\n' s.data).map fun l =>
    String.mk (if l.getLast? = some '\r' then l.dropLast else l)
  match parts.getLast? with
  | some last => if last = "" then parts.dropLast else parts
  | none => parts


/-! ## Data model (src/lib.rs) -/

/-- Country reference attached to a city (struct Country). -/
structure Country where
  id : Nat
  code : String
  name : String
deriving DecidableEq

/-- Administrative division (struct AdminDivision). -/
structure AdminDivision where
  id : Nat
  code : String
  name : String
deriving DecidableEq

/-- GeoNames country-info row (struct CountryRecordRaw, all 19 fields). -/
structure CountryRecordRaw where
  iso : String
  iso3 : String
  iso_numeric : String
  fips : String
  name : String
  capital : String
  area : String
  population : Nat
  continent : String
  tld : String
  currency_code : String
  currency_name : String
  phone : String
  postal_code_format : String
  postal_code_regex : String
  languages : String
  geonameid : Nat
  neighbours : String
  equivalent_fips_code : String
deriving DecidableEq

/-- Country record with localized names (struct CountryRecord). -/
structure CountryRecord where
  info : CountryRecordRaw
  names : Option (List (String × String))
  capital_names : Option (List (String × String))
deriving DecidableEq

/-- Parsed city row; the retained fields of struct CitiesRecordRaw
(the underscore-prefixed fields are parsed and discarded in the source). -/
structure CitiesRecordRaw where
  geonameid : Nat
  name : String
  asciiname : String
  alternatenames : String
  latitude : ℚ
  longitude : ℚ
  feature_code : String
  country_code : String
  admin1_code : String
  admin2_code : String
  population : Nat
  timezone : String
deriving DecidableEq

/-- Parsed alternate-names row; retained fields of struct AlternateNamesRaw. -/
structure AlternateNamesRaw where
  geonameid : Nat
  isolanguage : String
  alternate_name : String
  is_preferred_name : String
  is_short_name : String
  is_colloquial : String
  is_historic : String
deriving DecidableEq

/-- Admin1/Admin2 code row (structs Admin1CodeRecordRaw and Admin2CodeRecordRaw
have identical retained shape). -/
structure AdminCodeRecordRaw where
  code : String
  name : String
  geonameid : Nat
deriving DecidableEq

/-- Materialised city (struct CitiesRecord). -/
structure CitiesRecord where
  id : Nat
  name : String
  latitude : ℚ
  longitude : ℚ
  country : Option Country
  admin_division : Option AdminDivision
  admin2_division : Option AdminDivision
  timezone : String
  names : Option (List (String × String))
  country_names : Option (List (String × String))
  admin1_names : Option (List (String × String))
  admin2_names : Option (List (String × String))
  population : Nat
deriving DecidableEq

/-- Reverse-geocoding hit (struct ReverseItem; the borrowed city is
modelled by value). -/
structure ReverseItem where
  city : CitiesRecord
  distance : ℚ
  score : ℚ
deriving DecidableEq

/-- Sources metadata (struct EngineSourceMetadata). -/
structure EngineSourceMetadata where
  cities : String
  names : Option String
  countries : Option String
  admin1_codes : Option String
  admin2_codes : Option String
  filter_languages : List String
  etag : List (String × String)
deriving DecidableEq

/-- Index metadata (struct EngineMetadata; `created_at` as Unix seconds). -/
structure EngineMetadata where
  geosuggest_version : String
  created_at : Nat
  source : EngineSourceMetadata
  extra : List (String × String)
deriving DecidableEq

/-- Searchable entry (struct Entry). -/
structure Entry where
  id : Nat
  value : String
  country_id : Option Nat
deriving DecidableEq

/-- The query engine state (struct Engine). The kiddo K-D tree is modelled
by the list of points it was built from (`tree`), in slice order. -/
structure Engine where
  entries : List Entry
  geonames : List (Nat × CitiesRecord)
  capitals : List (String × Nat)
  country_info_by_code : List (String × CountryRecord)
  metadata : Option EngineMetadata
  tree_index_to_geonameid : List (Nat × Nat)
  tree : List (ℚ × ℚ)
deriving DecidableEq

/-- Serialized engine payload (struct EngineDump): the tree and the
index-to-id map are not persisted and are rebuilt on load. -/
structure EngineDump where
  entries : List Entry
  geonames : List (Nat × CitiesRecord)
  capitals : List (String × Nat)
  country_info_by_code : List (String × CountryRecord)
  metadata : Option EngineMetadata
deriving DecidableEq

/-! ## Query operations (impl Engine, src/lib.rs lines 301-499) -/

/-- The f32 machine epsilon used by the suggest comparator (f32::EPSILON). -/
def epsF32 : ℚ := 1 / 2 ^ 23

/-- Three-way comparison on ℚ, modelling `partial_cmp` on finite floats. -/
def qCmp (x y : ℚ) : Ordering :=
  if x < y then .lt else if x = y then .eq else .gt

/-- Three-way comparison on Nat, modelling `partial_cmp` on u32. -/
def natCmp (x y : Nat) : Ordering :=
  if x < y then .lt else if x = y then .eq else .gt

/-- The suggest sort comparator (src/lib.rs lines 376-387): score pairs are
compared descending by score, scores closer than f32::EPSILON are tied and
compared descending by population. -/
def suggestCmp (lhs rhs : CitiesRecord × ℚ) : Ordering :=
  if |lhs.2 - rhs.2| < epsF32 then natCmp rhs.1.population lhs.1.population
  else qCmp rhs.2 lhs.2

/-- Boolean sort order induced by `suggestCmp`. -/
def suggestLe (lhs rhs : CitiesRecord × ℚ) : Bool := suggestCmp lhs rhs ≠ .gt

/-- Score of one entry against the normalised pattern (the closure
`filter_by_pattern`): 1.0 on a prefix match, else Jaro-Winkler. -/
def entryScore (jw : String → String → ℚ) (normalized_pattern : String)
    (item : Entry) : ℚ :=
  if strStarts item.value normalized_pattern then 1 else jw item.value normalized_pattern

/-- Direct city lookup (Engine::get). -/
def Engine.get (e : Engine) (id : Nat) : Option CitiesRecord :=
  alookup e.geonames id

/-- Capital lookup by ISO code (Engine::capital): the argument is
uppercased before the map lookup. -/
def Engine.capital (e : Engine) (country_code : String) : Option CitiesRecord :=
  match alookup e.capitals (strUpper country_code) with
  | some city_id => e.get city_id
  | none => none

/-- Country info lookup by ISO code (Engine::country_info): the argument is
uppercased before the map lookup. -/
def Engine.country_info (e : Engine) (country_code : String) : Option CountryRecord :=
  alookup e.country_info_by_code (strUpper country_code)

/-- The country ids a `countries` filter resolves to
(src/lib.rs lines 348-355): unresolvable codes are silently dropped. -/
def resolveCountryIds (e : Engine) (countries : List String) : List Nat :=
  countries.filterMap fun code =>
    (alookup e.country_info_by_code (strUpper code)).map (·.info.geonameid)

/-- Scored candidate list of Engine::suggest before sorting
(src/lib.rs lines 333-373): optional country prefilter, then score and keep
entries at or above `min_score`, attached to their owning city. -/
def suggestBase (e : Engine) (jw : String → String → ℚ) (normalized_pattern : String)
    (min_score : ℚ) (countries : Option (List String)) : List (CitiesRecord × ℚ) :=
  let filter_by_pattern : Entry → Option (CitiesRecord × ℚ) := fun item =>
    let score := entryScore jw normalized_pattern item
    if min_score ≤ score then (alookup e.geonames item.id).map (fun city => (city, score))
    else none
  match countries with
  | some countries =>
      let country_ids := resolveCountryIds e countries
      ((e.entries.filter fun item =>
          match item.country_id with
          | some country_id => country_id ∈ country_ids
          | none => false).filterMap filter_by_pattern)
  | none => e.entries.filterMap filter_by_pattern

/-- Engine::suggest (src/lib.rs lines 319-395). -/
def Engine.suggest (e : Engine) (jw : String → String → ℚ) (pattern : String)
    (limit : Nat) (min_score : Option ℚ) (countries : Option (List String)) :
    List CitiesRecord :=
  if limit = 0 then [] else
  let min_score := min_score.getD (4 / 5)
  let normalized_pattern := strLower pattern
  let result := sortByLe suggestLe (suggestBase e jw normalized_pattern min_score countries)
  ((uniqueBy (fun item => item.1.id) [] result).take limit).map (·.1)

/-- Squared Euclidean distance in (lat, lng) space. -/
def sqDist (a b : ℚ × ℚ) : ℚ := (a.1 - b.1) ^ 2 + (a.2 - b.2) ^ 2

/-- Model of the kiddo `ImmutableKdTree::nearest_n::<SquaredEuclidean>` query:
every stored point paired with its index and squared distance, sorted by
non-decreasing distance (stable, so ties keep index order), first `n` kept. -/
def nearestN (tree : List (ℚ × ℚ)) (loc : ℚ × ℚ) (n : Nat) : List (Nat × ℚ) :=
  (sortByLe (fun a b => a.2 ≤ b.2)
    ((enumFrom 0 tree).map fun p => (p.1, sqDist p.2 loc))).take n

/-- Map a tree hit to its city (the `filter_map` closures in Engine::reverse,
src/lib.rs lines 436-454), with the optional uppercased country filter. -/
def reverseHits (e : Engine) (hits : List (Nat × ℚ)) (countries : Option (List String)) :
    List ((Nat × ℚ) × CitiesRecord) :=
  match countries with
  | some countries =>
      let countries := countries.map strUpper
      hits.filterMap fun nearest =>
        match alookup e.tree_index_to_geonameid nearest.1 with
        | none => none
        | some geonameid =>
          match alookup e.geonames geonameid with
          | none => none
          | some city =>
            match city.country with
            | none => none
            | some country =>
                if country.code ∈ countries then some (nearest, city) else none
  | none =>
      hits.filterMap fun nearest =>
        match alookup e.tree_index_to_geonameid nearest.1 with
        | none => none
        | some geonameid =>
          match alookup e.geonames geonameid with
          | none => none
          | some city => some (nearest, city)

/-- Engine::reverse (src/lib.rs lines 402-494). The country-filtered path
over-fetches the whole table; `NonZero::new` makes a zero nearest-limit
return `none`. -/
def Engine.reverse (e : Engine) (loc : ℚ × ℚ) (limit : Nat) (k : Option ℚ)
    (countries : Option (List String)) : Option (List ReverseItem) :=
  if limit = 0 then none else
  let nearest_limit := match countries with
    | some _ => e.geonames.length
    | none => limit
  if nearest_limit = 0 then none else
  let items := reverseHits e (nearestN e.tree loc nearest_limit) countries
  match k with
  | some k =>
      let points := (items.map fun item =>
        (item.1.2, item.1.2 - k * (item.2.population : ℚ), item.2)).take limit
      let points := sortByLe (fun a b => a.2.1 ≤ b.2.1) points
      some (points.map fun p => { distance := p.1, score := p.2.1, city := p.2.2 })
  | none =>
      some ((items.map fun item =>
        { distance := item.1.2, score := item.1.2, city := item.2 : ReverseItem }).take limit)

/-! ## Index builder (Engine::new_from_files_content, src/lib.rs 537-1064) -/

/-- Feature codes excluded from the index (src/lib.rs lines 888-893). -/
def excludedFeatureCodes : List String :=
  ["PPLA3", "PPLA4", "PPLA5", "PPLF", "PPLL", "PPLQ", "PPLW", "PPLX", "STLMT"]

/-- split_content_to_n_parts (src/lib.rs lines 1111-1118): `n ≤ 1` keeps the
content whole; otherwise the line list is cut with `slice::chunks(n)`
(chunks OF SIZE `n`) and each chunk rejoined with newlines. -/
def split_content_to_n_parts (content : String) (n : Nat) : List String :=
  if n = 0 ∨ n = 1 then [content]
  else (chunksOf n (linesOf content)).map (String.intercalate "\n")

/-- The parallel city parse (src/lib.rs lines 550-568): chunks are decoded
independently and the row lists concatenated in chunk order (rayon ordered
reduce); the csv decoder itself is external and abstracted as a parameter. -/
def parseCities (decodeChunk : String → List CitiesRecordRaw)
    (cities : String) (num_threads : Nat) : List CitiesRecordRaw :=
  ((split_content_to_n_parts cities num_threads).map decodeChunk).flatten

/-- Country table keyed by ISO code (src/lib.rs lines 588-625): the raw iso
field is the key, later duplicate rows overwrite earlier ones. -/
def countryByCode (rows : List CountryRecordRaw) : List (String × CountryRecordRaw) :=
  rows.foldl (fun m record => aupsert record.iso record m) []

/-- Admin1/Admin2 table keyed by the raw code (src/lib.rs lines 628-701). -/
def adminByCode (rows : List AdminCodeRecordRaw) : List (String × AdminDivision) :=
  rows.foldl (fun m record =>
    aupsert record.code
      { id := record.geonameid, code := record.code, name := record.name } m) []

/-- One step of the alternate-names scan (src/lib.rs lines 754-819). -/
def namesStep (cityIds countryIds admin1Ids admin2Ids : List Nat)
    (filter_languages : List String)
    (m : List (Nat × List (String × AlternateNamesRaw))) (record : AlternateNamesRaw) :
    List (Nat × List (String × AlternateNamesRaw)) :=
  let is_city_name := record.geonameid ∈ cityIds
  if ¬ (is_city_name ∨ record.geonameid ∈ countryIds ∨
        record.geonameid ∈ admin1Ids ∨ record.geonameid ∈ admin2Ids) then m
  else if is_city_name ∧ record.is_short_name = "1" ∧ record.is_preferred_name ≠ "1" then m
  else if record.is_colloquial = "1" then m
  else if record.is_historic = "1" then m
  else if record.isolanguage ∉ filter_languages then m
  else
    match alookup m record.geonameid with
    | some item =>
        let is_current_preferred_name : Bool :=
          match alookup item record.isolanguage with
          | some i => i.is_preferred_name == "1"
          | none => false
        if is_current_preferred_name then m
        else aupsert record.geonameid (aupsert record.isolanguage record item) m
    | none => aupsert record.geonameid [(record.isolanguage, record)] m

/-- The alternate-names resolution (src/lib.rs lines 743-846; the names file
is processed as a single chunk): scan all rows, then project each kept
record to its alternate_name string. -/
def namesById (cityIds countryIds admin1Ids admin2Ids : List Nat)
    (filter_languages : List String) (rows : List AlternateNamesRaw) :
    List (Nat × List (String × String)) :=
  (rows.foldl (namesStep cityIds countryIds admin1Ids admin2Ids filter_languages) []).map
    fun p => (p.1, p.2.map fun n => (n.1, n.2.alternate_name))

/-- Intermediate state of the main city loop (src/lib.rs lines 867-1000):
the names map is mutated along the way (non-capital cities move their
bundle out of it). -/
structure BuildState where
  entries : List Entry
  geonames : List CitiesRecord
  capitals : List (String × Nat)
  names_by_id : Option (List (Nat × List (String × String)))

/-- One iteration of the main city loop (src/lib.rs lines 867-1000). -/
def buildStep (country_by_code : Option (List (String × CountryRecordRaw)))
    (admin1_by_code admin2_by_code : Option (List (String × AdminDivision)))
    (st : BuildState) (record : CitiesRecordRaw) : BuildState :=
  if record.feature_code ∈ excludedFeatureCodes then st else
  let is_capital := record.feature_code = "PPLC"
  let country_id := country_by_code.bind fun m =>
    (alookup m record.country_code).map (·.geonameid)
  let entries := st.entries ++
    [{ id := record.geonameid, value := strLower record.name, country_id }] ++
    (if record.name ≠ record.asciiname then
      [{ id := record.geonameid, value := strLower record.asciiname, country_id : Entry }]
     else []) ++
    (splitChar ',' record.alternatenames.data).map fun altname =>
      { id := record.geonameid, value := strLower (String.mk altname), country_id }
  let capitals := match country_by_code with
    | some _ => if is_capital then aupsert record.country_code record.geonameid st.capitals
                else st.capitals
    | none => st.capitals
  let country := country_by_code.bind fun c => alookup c record.country_code
  let country_names := country.bind fun c =>
    st.names_by_id.bind fun names => alookup names c.geonameid
  let admin_division := admin1_by_code.bind fun a =>
    alookup a (record.country_code ++ "." ++ record.admin1_code)
  let admin1_names := admin_division.bind fun a =>
    st.names_by_id.bind fun names => alookup names a.id
  let admin2_division := admin2_by_code.bind fun a =>
    alookup a (record.country_code ++ "." ++ record.admin1_code ++ "." ++ record.admin2_code)
  let admin2_names := admin2_division.bind fun a =>
    st.names_by_id.bind fun names => alookup names a.id
  let city_names := st.names_by_id.bind fun names => alookup names record.geonameid
  let names_by_id := match st.names_by_id with
    | some names => if is_capital then some names else some (aerase record.geonameid names)
    | none => none
  { entries
    geonames := st.geonames ++
      [{ id := record.geonameid
         name := record.name
         country := country.map fun c =>
           { id := c.geonameid, code := c.iso, name := c.name }
         admin_division
         admin2_division
         latitude := record.latitude
         longitude := record.longitude
         timezone := record.timezone
         names := city_names
         country_names
         admin1_names
         admin2_names
         population := record.population }]
    capitals
    names_by_id }

/-- Engine::new_from_files_content (src/lib.rs lines 537-1064) from
already-decoded rows (the csv decoders are external). -/
def buildEngine (records : List CitiesRecordRaw)
    (namesRows : Option (List AlternateNamesRaw))
    (countriesRows : Option (List CountryRecordRaw))
    (admin1Rows admin2Rows : Option (List AdminCodeRecordRaw))
    (filter_languages : List String) : Engine :=
  let country_by_code := countriesRows.map countryByCode
  let admin1_by_code := admin1Rows.map adminByCode
  let admin2_by_code := admin2Rows.map adminByCode
  let names_by_id := namesRows.map fun rows =>
    namesById (records.map (·.geonameid))
      ((country_by_code.getD []).map (·.2.geonameid))
      ((admin1_by_code.getD []).map (·.2.id))
      ((admin2_by_code.getD []).map (·.2.id))
      filter_languages rows
  let st := records.foldl (buildStep country_by_code admin1_by_code admin2_by_code)
    { entries := [], geonames := [], capitals := [], names_by_id }
  let geonames := dedupAdjBy (·.id) (sortByLe (fun a b => a.id ≤ b.id) st.geonames)
  let tree_index_to_geonameid := (enumFrom 0 geonames).map fun p => (p.1, p.2.id)
  let tree := geonames.map fun item => (item.latitude, item.longitude)
  { geonames := geonames.map fun item => (item.id, item)
    tree_index_to_geonameid
    tree
    entries := st.entries
    metadata := none
    country_info_by_code := match country_by_code with
      | some country_by_code =>
          country_by_code.map fun p =>
            (p.1,
             { names := st.names_by_id.bind fun names => alookup names p.2.geonameid
               capital_names := st.names_by_id.bind fun names =>
                 match alookup st.capitals p.2.iso with
                 | some city_id => alookup names city_id
                 | none => none
               info := p.2 : CountryRecord })
      | none => []
    capitals := st.capitals }

/-! ## Storage (src/storage.rs, bincode backend; From EngineDump, src/lib.rs 1140-1177) -/

/-- Engine::into its serialized payload: the persisted fields of the struct
(the tree and index map carry `rkyv with Skip` / are not serialized). -/
def dumpOfEngine (e : Engine) : EngineDump :=
  { entries := e.entries
    geonames := e.geonames
    capitals := e.capitals
    country_info_by_code := e.country_info_by_code
    metadata := e.metadata }

/-- From EngineDump for Engine (src/lib.rs lines 1140-1177): collect
(id, coordinates) from the city table values, sort by id, dedup by id,
rebuild the K-D tree and the index-to-id map. -/
def engineOfDump (engine_dump : EngineDump) : Engine :=
  let items := engine_dump.geonames.map fun p => (p.2.id, (p.2.latitude, p.2.longitude))
  let items := dedupAdjBy (·.1) (sortByLe (fun a b => a.1 ≤ b.1) items)
  let tree_index_to_geonameid := (enumFrom 0 items).map fun p => (p.1, p.2.1)
  let tree := items.map (·.2)
  { entries := engine_dump.entries
    geonames := engine_dump.geonames
    capitals := engine_dump.capitals
    country_info_by_code := engine_dump.country_info_by_code
    tree_index_to_geonameid
    tree
    metadata := engine_dump.metadata }

/-- Storage error taxonomy at the byte level: short reads and decode
failures both surface as `Err` in the source. -/
inductive StorageErr where
  | ioError
  | codecError
deriving DecidableEq

/-- Big-endian 4-byte encoding of a u32 length (`u32::to_be_bytes`). -/
def u32be (n : Nat) : List Nat :=
  [n / 2 ^ 24 % 256, n / 2 ^ 16 % 256, n / 2 ^ 8 % 256, n % 256]

/-- Big-endian read of a u32 length (`u32::from_be_bytes`). -/
def beToNat (b0 b1 b2 b3 : Nat) : Nat :=
  ((b0 * 256 + b1) * 256 + b2) * 256 + b3

/-- Bincode encoding of the `Option<EngineMetadata>` field: a one-byte
discriminant (0 = None, 1 = Some) followed by the body; the body encoder of
the external bincode derive is abstracted as a parameter. -/
def encodeOptionMeta (encB : EngineMetadata → List Nat) :
    Option EngineMetadata → List Nat
  | none => [0]
  | some m => 1 :: encB m

/-- Bincode decoding of `Option<EngineMetadata>`: reading the discriminant
from an empty input is an UnexpectedEnd decode error. -/
def decodeOptionMeta (decB : List Nat → Option EngineMetadata) :
    List Nat → Except StorageErr (Option EngineMetadata)
  | [] => .error .codecError
  | b :: rest =>
      if b = 0 then .ok none
      else if b = 1 then
        match decB rest with
        | some m => .ok (some m)
        | none => .error .codecError
      else .error .codecError

/-- bincode::Storage::dump (src/storage.rs lines 168-178) at the byte level:
4-byte big-endian metadata length, metadata bytes, then the payload bytes
(whose encoder is external and abstracted). -/
def dumpBytes (encB : EngineMetadata → List Nat)
    (encPayload : EngineDump → List Nat) (e : Engine) : List Nat :=
  let metadata := encodeOptionMeta encB e.metadata
  u32be metadata.length ++ metadata ++ encPayload (dumpOfEngine e)

/-- bincode::Storage::read_metadata (src/storage.rs lines 205-228) at the
byte level: read exactly 4 bytes of length and exactly that many metadata
bytes, then decode them; the payload is never touched. -/
def read_metadata (decB : List Nat → Option EngineMetadata) (bytes : List Nat) :
    Except StorageErr (Option EngineMetadata) :=
  match bytes with
  | b0 :: b1 :: b2 :: b3 :: rest =>
      let metadata_len := beToNat b0 b1 b2 b3
      if rest.length < metadata_len then .error .ioError
      else decodeOptionMeta decB (rest.take metadata_len)
  | _ => .error .ioError

/-- bincode::Storage::load (src/storage.rs lines 181-202) at the byte level:
read and skip the metadata block, decode the remainder as the payload
(external decoder abstracted), and rebuild the engine. -/
def loadBytes (decPayload : List Nat → Option EngineDump) (bytes : List Nat) :
    Except StorageErr Engine :=
  match bytes with
  | b0 :: b1 :: b2 :: b3 :: rest =>
      let metadata_len := beToNat b0 b1 b2 b3
      if rest.length < metadata_len then .error .ioError
      else
        match decPayload (rest.drop metadata_len) with
        | some d => .ok (engineOfDump d)
        | none => .error .codecError
  | _ => .error .ioError

/-! ## Derived notions and invariants used by the statements -/

/-- The full suggest result before truncation: scored, sorted and
deduplicated by city id, exactly the pipeline of Engine::suggest. -/
def suggestAll (e : Engine) (jw : String → String → ℚ) (pattern : String)
    (min_score : Option ℚ) (countries : Option (List String)) : List CitiesRecord :=
  (uniqueBy (fun item => item.1.id) []
    (sortByLe suggestLe
      (suggestBase e jw (strLower pattern) (min_score.getD (4 / 5)) countries))).map (·.1)

/-- Boolean test that a list of naturals is strictly increasing. -/
def strictIncr : List Nat → Bool
  | [] => true
  | [_] => true
  | a :: b :: t => decide (a < b) && strictIncr (b :: t)

/-- Structural invariant of a built engine (spec section 4.3 State): the city
table is keyed by city id with strictly increasing ids, the tree points are
the city coordinates in table order, and the index-to-id map is the
enumeration of the city ids. -/
def EngineWF (e : Engine) : Prop :=
  (∀ p ∈ e.geonames, p.1 = p.2.id) ∧
  strictIncr (e.geonames.map (fun p => p.2.id)) = true ∧
  e.tree = e.geonames.map (fun p => (p.2.latitude, p.2.longitude)) ∧
  e.tree_index_to_geonameid = (enumFrom 0 e.geonames).map (fun p => (p.1, p.2.2.id))

instance (e : Engine) : Decidable (EngineWF e) :=
  show Decidable ((∀ p ∈ e.geonames, p.1 = p.2.id) ∧
    strictIncr (e.geonames.map (fun p => p.2.id)) = true ∧
    e.tree = e.geonames.map (fun p => (p.2.latitude, p.2.longitude)) ∧
    e.tree_index_to_geonameid = (enumFrom 0 e.geonames).map (fun p => (p.1, p.2.2.id)))
  from inferInstance

/-- Coherence of an entry with its owning city: when the entry carries a
country id and resolves to a city, that city carries a country whose
geonameid row appears in the country-info map under that country's code
(spec section 3: Country is unique by code; entries and cities of one
GeoNames row share one country). -/
def coherentEnt (e : Engine) (ent : Entry) : Prop :=
  ∀ cid ∈ ent.country_id, ∀ c ∈ alookup e.geonames ent.id,
    ∃ ctry ∈ c.country.toList, ∃ kr ∈ e.country_info_by_code,
      kr.2.info.geonameid = cid ∧ ctry.code = kr.1

instance (e : Engine) (ent : Entry) : Decidable (coherentEnt e ent) :=
  inferInstanceAs (Decidable (∀ cid ∈ ent.country_id, ∀ c ∈ alookup e.geonames ent.id,
    ∃ ctry ∈ c.country.toList, ∃ kr ∈ e.country_info_by_code,
      kr.2.info.geonameid = cid ∧ ctry.code = kr.1))

/-- Every entry of the engine is coherent with its owning city. -/
def suggestCountryCoherent (e : Engine) : Prop :=
  ∀ ent ∈ e.entries, coherentEnt e ent

instance (e : Engine) : Decidable (suggestCountryCoherent e) :=
  inferInstanceAs (Decidable (∀ ent ∈ e.entries, coherentEnt e ent))

/-- Country geoname ids identify at most one country-info key (spec
section 3: CountryInfo is unique by iso, Country unique by code). -/
def countryIdsInjective (e : Engine) : Prop :=
  ∀ kr1 ∈ e.country_info_by_code, ∀ kr2 ∈ e.country_info_by_code,
    kr1.2.info.geonameid = kr2.2.info.geonameid → kr1.1 = kr2.1

instance (e : Engine) : Decidable (countryIdsInjective e) :=
  inferInstanceAs (Decidable (∀ kr1 ∈ e.country_info_by_code, ∀ kr2 ∈ e.country_info_by_code,
    kr1.2.info.geonameid = kr2.2.info.geonameid → kr1.1 = kr2.1))

/-! ## Concrete fixtures for witnesses and counterexamples -/

/-- Trivial stand-in for the external Jaro-Winkler metric. -/
def jw0 : String → String → ℚ := fun _ _ => 0

/-- A minimal populated-place row. -/
def mkRow (i : Nat) (nm : String) (cc : String) (fc : String) (lat lng : ℚ)
    (pop : Nat) : CitiesRecordRaw :=
  { geonameid := i, name := nm, asciiname := nm, alternatenames := "",
    latitude := lat, longitude := lng, feature_code := fc, country_code := cc,
    admin1_code := "", admin2_code := "", population := pop, timezone := "UTC" }

/-- A minimal country-info row. -/
def mkCountry (iso : String) (gid : Nat) (nm : String) : CountryRecordRaw :=
  { iso := iso, iso3 := "", iso_numeric := "", fips := "", name := nm,
    capital := "", area := "", population := 0, continent := "", tld := "",
    currency_code := "", currency_name := "", phone := "",
    postal_code_format := "", postal_code_regex := "", languages := "",
    geonameid := gid, neighbours := "", equivalent_fips_code := "" }

/-- One-city engine without side tables. -/
def engA : Engine :=
  buildEngine [mkRow 1 "Foo" "RU" "PPL" 0 0 5] none none none none []

/-- Two-city engine without side tables, distinct coordinates. -/
def engB : Engine :=
  buildEngine [mkRow 1 "Alpha" "RU" "PPL" 0 0 5, mkRow 2 "Beta" "RU" "PPL" 10 10 7]
    none none none none []

/-- One-city engine with a country table. -/
def engC : Engine :=
  buildEngine [mkRow 1 "Gamma" "RU" "PPL" 0 0 5] none
    (some [mkCountry "RU" 100 "Russia"]) none none []

/-- Engine built from a capital row whose country code is lowercase in the
source data. -/
def engD : Engine :=
  buildEngine [mkRow 1 "Delta" "ru" "PPLC" 0 0 5] none
    (some [mkCountry "RU" 100 "Russia"]) none none []

/-- The city record engB holds for the row named Alpha. -/
def cityAlpha : CitiesRecord :=
  { id := 1, name := "Alpha", latitude := 0, longitude := 0, country := none,
    admin_division := none, admin2_division := none, timezone := "UTC",
    names := none, country_names := none, admin1_names := none,
    admin2_names := none, population := 5 }

/-- The city record engB holds for the row named Beta. -/
def cityBeta : CitiesRecord :=
  { id := 2, name := "Beta", latitude := 10, longitude := 10, country := none,
    admin_division := none, admin2_division := none, timezone := "UTC",
    names := none, country_names := none, admin1_names := none,
    admin2_names := none, population := 7 }

/-- Nine-line content used to exhibit the chunking behaviour. -/
def nineLines : String := "a\nb\nc\nd\ne\nf\ng\nh\ni"

/-! ## Lemmas on the list infrastructure -/

theorem alookup_mem {K V : Type} [DecidableEq K] {l : List (K × V)} {k : K} {v : V}
    (h : alookup l k = some v) : (k, v) ∈ l := by
  induction l with
  | nil => simp [alookup] at h
  | cons p t ih =>
      obtain ⟨k2, v2⟩ := p
      by_cases hk : k2 = k
      · subst hk
        simp [alookup] at h
        simp [h]
      · simp [alookup, hk] at h
        exact List.mem_cons_of_mem _ (ih h)

theorem mem_insertSorted {A : Type} (le : A → A → Bool) (a x : A) (l : List A) :
    x ∈ insertSorted le a l ↔ x = a ∨ x ∈ l := by
  induction l with
  | nil => simp [insertSorted]
  | cons b t ih =>
      by_cases h : le a b
      · simp [insertSorted, h]
      · simp [insertSorted, h, ih]
        tauto

theorem mem_sortByLe {A : Type} (le : A → A → Bool) (x : A) (l : List A) :
    x ∈ sortByLe le l ↔ x ∈ l := by
  induction l with
  | nil => simp [sortByLe]
  | cons a t ih => simp [sortByLe, mem_insertSorted, ih]

theorem perm_insertSorted {A : Type} (le : A → A → Bool) (a : A) (l : List A) :
    List.Perm (insertSorted le a l) (a :: l) := by
  induction l with
  | nil => simp [insertSorted]
  | cons b t ih =>
      by_cases h : le a b
      · simp [insertSorted, h]
      · simp only [insertSorted, if_neg h]
        exact List.Perm.trans (List.Perm.cons b ih) (List.Perm.swap a b t)

theorem perm_sortByLe {A : Type} (le : A → A → Bool) (l : List A) :
    List.Perm (sortByLe le l) l := by
  induction l with
  | nil => simp [sortByLe]
  | cons a t ih =>
      exact List.Perm.trans (perm_insertSorted le a _) (List.Perm.cons a ih)

theorem chain'_insertSorted {A : Type} (le : A → A → Bool)
    (htot : ∀ x y, le x y ∨ le y x) (a : A) (l : List A)
    (h : List.Chain' (fun x y => le x y = true) l) :
    List.Chain' (fun x y => le x y = true) (insertSorted le a l) := by
  induction l with
  | nil => simp [insertSorted]
  | cons b t ih =>
      by_cases hab : le a b
      · simpa [insertSorted, hab] using h
      · have hba : le b a := by
          rcases htot a b with h1 | h1
          · exact absurd h1 hab
          · exact h1
        simp only [insertSorted, if_neg hab]
        have ht : List.Chain' (fun x y => le x y = true) t := List.Chain'.tail h
        have hrec := ih ht
        cases t with
        | nil => simp [insertSorted, hba]
        | cons c t2 =>
            by_cases hac : le a c
            · simp only [insertSorted, if_pos hac] at hrec ⊢
              exact List.Chain'.cons hba hrec
            · simp only [insertSorted, if_neg hac] at hrec ⊢
              have hbc : le b c := by
                have := List.chain'_cons.mp h
                exact this.1
              exact List.Chain'.cons hbc hrec

theorem chain'_sortByLe {A : Type} (le : A → A → Bool)
    (htot : ∀ x y, le x y ∨ le y x) (l : List A) :
    List.Chain' (fun x y => le x y = true) (sortByLe le l) := by
  induction l with
  | nil => simp [sortByLe]
  | cons a t ih => exact chain'_insertSorted le htot a _ ih

theorem sortByLe_eq_self {A : Type} (le : A → A → Bool) (l : List A)
    (h : List.Chain' (fun x y => le x y = true) l) : sortByLe le l = l := by
  induction l with
  | nil => rfl
  | cons a t ih =>
      have ht := List.Chain'.tail h
      simp only [sortByLe, ih ht]
      cases t with
      | nil => rfl
      | cons b t2 =>
          have hab : le a b := (List.chain'_cons.mp h).1
          simp [insertSorted, hab]

theorem sublist_uniqueBy {A : Type} (key : A → Nat) (seen : List Nat) (l : List A) :
    List.Sublist (uniqueBy key seen l) l := by
  induction l generalizing seen with
  | nil => simp [uniqueBy]
  | cons a t ih =>
      by_cases h : key a ∈ seen
      · simp only [uniqueBy, if_pos h]
        exact List.Sublist.cons a (ih seen)
      · simp only [uniqueBy, if_neg h]
        exact List.Sublist.cons₂ a (ih _)

theorem uniqueBy_key_not_seen {A : Type} (key : A → Nat) (seen : List Nat) (l : List A)
    (x : A) (hx : x ∈ uniqueBy key seen l) : key x ∉ seen := by
  induction l generalizing seen with
  | nil => simp [uniqueBy] at hx
  | cons a t ih =>
      by_cases h : key a ∈ seen
      · simp only [uniqueBy, if_pos h] at hx
        exact ih seen hx
      · simp only [uniqueBy, if_neg h, List.mem_cons] at hx
        rcases hx with rfl | hx
        · exact h
        · intro hcon
          exact ih (key a :: seen) hx (List.mem_cons_of_mem _ hcon)

theorem nodup_keys_uniqueBy {A : Type} (key : A → Nat) (seen : List Nat) (l : List A) :
    ((uniqueBy key seen l).map key).Nodup := by
  induction l generalizing seen with
  | nil => simp [uniqueBy]
  | cons a t ih =>
      by_cases h : key a ∈ seen
      · simp only [uniqueBy, if_pos h]
        exact ih seen
      · simp only [uniqueBy, if_neg h, List.map_cons, List.nodup_cons]
        refine ⟨?_, ih _⟩
        intro hcon
        obtain ⟨y, hy, hkey⟩ := List.mem_map.mp hcon
        exact uniqueBy_key_not_seen key _ t y hy (by simp [hkey])

theorem uniqueBy_complete {A : Type} (key : A → Nat) (seen : List Nat) (l : List A)
    (x : A) (hx : x ∈ l) (hns : key x ∉ seen) :
    ∃ y ∈ uniqueBy key seen l, key y = key x := by
  induction l generalizing seen with
  | nil => simp at hx
  | cons a t ih =>
      rcases List.mem_cons.mp hx with heq | hx
      · by_cases h : key a ∈ seen
        · rw [heq] at hns
          exact absurd h hns
        · refine ⟨a, ?_, (congrArg key heq).symm⟩
          simp [uniqueBy, if_neg h]
      · by_cases h : key a ∈ seen
        · simp only [uniqueBy, if_pos h]
          exact ih seen hx hns
        · simp only [uniqueBy, if_neg h]
          by_cases hk : key x = key a
          · exact ⟨a, by simp, hk.symm⟩
          · obtain ⟨y, hy, hkey⟩ := ih (key a :: seen) hx (by simp [hns, hk])
            exact ⟨y, List.mem_cons_of_mem _ hy, hkey⟩

theorem dedupAdjBy_head {A : Type} (key : A → Nat) (x : A) (l : List A) :
    ∃ t, dedupAdjBy key (x :: l) = x :: t := by
  induction l generalizing x with
  | nil => exact ⟨[], by simp [dedupAdjBy]⟩
  | cons b t ih =>
      by_cases h : key b = key x
      · simp only [dedupAdjBy, if_pos h]
        exact ih x
      · simp only [dedupAdjBy, if_neg h]
        exact ⟨dedupAdjBy key (b :: t), rfl⟩

theorem sublist_dedupAdjBy {A : Type} (key : A → Nat) (l : List A) :
    List.Sublist (dedupAdjBy key l) l := by
  have H : ∀ n (l : List A), l.length ≤ n → List.Sublist (dedupAdjBy key l) l := by
    intro n
    induction n with
    | zero =>
        intro l hl
        rw [List.length_eq_zero.mp (Nat.le_zero.mp hl)]
        simp [dedupAdjBy]
    | succ n ih =>
        intro l hl
        match l with
        | [] => simp [dedupAdjBy]
        | [a] => simp [dedupAdjBy]
        | a :: b :: t =>
            by_cases h : key b = key a
            · simp only [dedupAdjBy, if_pos h]
              have : List.Sublist (dedupAdjBy key (a :: t)) (a :: t) := by
                apply ih
                simpa using Nat.le_of_succ_le_succ hl
              exact this.trans (by
                refine List.Sublist.cons₂ a ?_
                exact List.Sublist.cons b (List.Sublist.refl t))
            · simp only [dedupAdjBy, if_neg h]
              refine List.Sublist.cons₂ a ?_
              apply ih
              simpa using Nat.le_of_succ_le_succ hl
  exact H l.length l (Nat.le_refl _)

theorem chain'_lt_dedupAdjBy {A : Type} (key : A → Nat) (l : List A)
    (h : List.Chain' (fun a b => key a ≤ key b) l) :
    List.Chain' (fun a b => key a < key b) (dedupAdjBy key l) := by
  have H : ∀ n (l : List A), l.length ≤ n →
      List.Chain' (fun a b => key a ≤ key b) l →
      List.Chain' (fun a b => key a < key b) (dedupAdjBy key l) := by
    intro n
    induction n with
    | zero =>
        intro l hl _
        rw [List.length_eq_zero.mp (Nat.le_zero.mp hl)]
        simp [dedupAdjBy]
    | succ n ih =>
        intro l hl hc
        match l with
        | [] => simp [dedupAdjBy]
        | [a] => simp [dedupAdjBy]
        | a :: b :: t =>
            by_cases h : key b = key a
            · simp only [dedupAdjBy, if_pos h]
              apply ih
              · simpa using Nat.le_of_succ_le_succ hl
              · have hbt := (List.chain'_cons.mp hc).2
                cases t with
                | nil => simp
                | cons c t2 =>
                    have hbc : key b ≤ key c := (List.chain'_cons.mp hbt).1
                    refine List.chain'_cons.mpr ⟨?_, (List.chain'_cons.mp hbt).2⟩
                    omega
            · simp only [dedupAdjBy, if_neg h]
              have hab : key a ≤ key b := (List.chain'_cons.mp hc).1
              have hrec : List.Chain' (fun a b => key a < key b) (dedupAdjBy key (b :: t)) := by
                apply ih
                · simpa using Nat.le_of_succ_le_succ hl
                · exact (List.chain'_cons.mp hc).2
              obtain ⟨t2, ht2⟩ := dedupAdjBy_head key b t
              rw [ht2] at hrec ⊢
              refine List.chain'_cons.mpr ⟨?_, hrec⟩
              omega
  exact H l.length l (Nat.le_refl _) h

theorem dedupAdjBy_eq_self {A : Type} (key : A → Nat) (l : List A)
    (h : List.Chain' (fun a b => key a < key b) l) : dedupAdjBy key l = l := by
  have H : ∀ n (l : List A), l.length ≤ n →
      List.Chain' (fun a b => key a < key b) l → dedupAdjBy key l = l := by
    intro n
    induction n with
    | zero =>
        intro l hl _
        rw [List.length_eq_zero.mp (Nat.le_zero.mp hl)]
        simp [dedupAdjBy]
    | succ n ih =>
        intro l hl hc
        match l with
        | [] => simp [dedupAdjBy]
        | [a] => simp [dedupAdjBy]
        | a :: b :: t =>
            have hab : key a < key b := (List.chain'_cons.mp hc).1
            have h : ¬ key b = key a := by omega
            simp only [dedupAdjBy, if_neg h]
            congr 1
            apply ih
            · simpa using Nat.le_of_succ_le_succ hl
            · exact (List.chain'_cons.mp hc).2
  exact H l.length l (Nat.le_refl _) h

theorem alookup_enumFrom_map {A B : Type} (g : Nat × A → B) (l : List A) :
    ∀ (i j : Nat), alookup ((enumFrom i l).map fun p => (p.1, g p)) (i + j) =
      (l.get? j).map fun a => g (i + j, a) := by
  induction l with
  | nil => intro i j; simp [enumFrom, alookup]
  | cons a t ih =>
      intro i j
      cases j with
      | zero => simp [enumFrom, alookup]
      | succ j =>
          have hne : ¬ (i = i + (j + 1)) := by omega
          simp only [enumFrom, List.map_cons, alookup, if_neg hne]
          have := ih (i + 1) j
          rw [show i + 1 + j = i + (j + 1) by omega] at this
          simpa using this

theorem mem_enumFrom {A : Type} (l : List A) :
    ∀ (i j : Nat) (a : A), (j, a) ∈ enumFrom i l → i ≤ j ∧ l.get? (j - i) = some a := by
  induction l with
  | nil => intro i j a h; simp [enumFrom] at h
  | cons x t ih =>
      intro i j a h
      simp only [enumFrom, List.mem_cons] at h
      rcases h with h | h
      · rw [Prod.mk.injEq] at h
        obtain ⟨h1, h2⟩ := h
        constructor
        · omega
        · have : j - i = 0 := by omega
          rw [this]
          simp [h2.symm]
      · obtain ⟨h1, h2⟩ := ih (i + 1) j a h
        constructor
        · omega
        · have : j - i = (j - (i + 1)) + 1 := by omega
          rw [this]
          simpa using h2

theorem alookup_keyed_self {A : Type} (key : A → Nat) (cities : List A) (c : A)
    (hnd : (cities.map key).Nodup) (hc : c ∈ cities) :
    alookup (cities.map fun x => (key x, x)) (key c) = some c := by
  induction cities with
  | nil => simp at hc
  | cons a t ih =>
      simp only [List.map_cons, List.nodup_cons] at hnd
      rcases List.mem_cons.mp hc with heq | hmem
      · rw [heq]
        simp [alookup]
      · by_cases h : key a = key c
        · exfalso
          exact hnd.1 (h ▸ List.mem_map_of_mem key hmem)
        · simp only [List.map_cons, alookup, if_neg h]
          exact ih hnd.2 hmem

theorem mem_aupsert {K V : Type} [DecidableEq K] (k2 : K) (v2 : V) (l : List (K × V))
    (k : K) (v : V) (h : (k, v) ∈ aupsert k2 v2 l) :
    (k = k2 ∧ v = v2) ∨ (k, v) ∈ l := by
  induction l with
  | nil =>
      simp [aupsert] at h
      exact Or.inl ⟨h.1, h.2⟩
  | cons p t ih =>
      obtain ⟨k3, v3⟩ := p
      by_cases hk : k3 = k2
      · simp only [aupsert, if_pos hk, List.mem_cons] at h
        rcases h with h | h
        · rw [Prod.mk.injEq] at h
          exact Or.inl h
        · exact Or.inr (by simp [hk, List.mem_cons, h])
      · simp only [aupsert, if_neg hk, List.mem_cons] at h
        rcases h with h | h
        · exact Or.inr (by simp [List.mem_cons, h])
        · rcases ih h with h2 | h2
          · exact Or.inl h2
          · exact Or.inr (List.mem_cons_of_mem _ h2)

theorem beToNat_u32be (n : Nat) (h : n < 2 ^ 32) :
    beToNat (n / 2 ^ 24 % 256) (n / 2 ^ 16 % 256) (n / 2 ^ 8 % 256) (n % 256) = n := by
  unfold beToNat
  omega

theorem filterMap_filter_isSome {A B : Type} (f : A → Option B) (l : List A) :
    l.filterMap f = (l.filter fun a => (f a).isSome).filterMap f := by
  induction l with
  | nil => rfl
  | cons a t ih =>
      cases hf : f a with
      | none => simp [List.filterMap_cons, List.filter_cons, hf, ih]
      | some b => simp [List.filterMap_cons, List.filter_cons, hf, ih]

/-! ## Claim theorems -/

/-- C6: the suggest result for limit `n` is a prefix of the suggest result
for limit `n + k`: the limit only truncates the final deduplicated list. -/
theorem C6_suggest_limit_monotone (e : Engine) (jw : String → String → ℚ)
    (p : String) (n k : Nat) (s : Option ℚ) (c : Option (List String)) :
    ∃ t, e.suggest jw p n s c ++ t = e.suggest jw p (n + k) s c := by
  by_cases hn : n = 0
  · subst hn
    exact ⟨e.suggest jw p (0 + k) s c, by simp [Engine.suggest]⟩
  · have hnk : ¬ (n + k = 0) := by omega
    simp only [Engine.suggest, if_neg hn, if_neg hnk]
    refine ⟨(List.drop n ((uniqueBy (fun item => item.1.id) []
      (sortByLe suggestLe (suggestBase e jw (strLower p) (s.getD (4 / 5)) c))).take
        (n + k))).map (·.1), ?_⟩
    rw [← List.map_append]
    congr 1
    have h1 : ∀ (u : List (CitiesRecord × ℚ)), u.take n = (u.take (n + k)).take n := by
      intro u
      rw [List.take_take]
      congr 1
      omega
    rw [h1, List.take_append_drop]

/-- C8: on a nine-line cities content with an available parallelism of two,
split_content_to_n_parts returns five chunks (slice::chunks makes chunks of
SIZE two), not the two chunks the specification describes. -/
theorem C8_split_chunking_bug :
    (linesOf nineLines).length = 9 ∧ (split_content_to_n_parts nineLines 2).length = 5 := by
  exact ⟨by decide, by decide⟩

/-- C9 counterexample: on a stored index whose 4-byte metadata length prefix
is zero, read_metadata returns a decode error (bincode cannot read an Option
discriminant from an empty slice), not None as the claim states. -/
theorem C9_counterexample :
    read_metadata (fun _ => none) [0, 0, 0, 0, 5, 5] = Except.error StorageErr.codecError ∧
    (Except.error StorageErr.codecError : Except StorageErr (Option EngineMetadata)) ≠
      Except.ok none := by
  refine ⟨rfl, fun h => Except.noConfusion h⟩

/-- C9 amended: read_metadata reads and decodes only the metadata block and
never touches the payload, but a zero length prefix yields a decode error
rather than None; dump never writes a zero prefix (absent metadata encodes
as the one-byte None discriminant), and reading back a dumped engine
returns exactly its metadata. -/
theorem C9_read_metadata_amended :
    (∀ decB (payload : List Nat),
      read_metadata decB (u32be 0 ++ payload) = Except.error StorageErr.codecError) ∧
    (∀ decB (meta payload : List Nat), meta.length < 2 ^ 32 →
      read_metadata decB (u32be meta.length ++ meta ++ payload) = decodeOptionMeta decB meta) ∧
    (∀ encB (m : Option EngineMetadata), (encodeOptionMeta encB m).length ≠ 0) ∧
    (∀ encB decB encP (e : Engine),
      (encodeOptionMeta encB e.metadata).length < 2 ^ 32 →
      (∀ m, e.metadata = some m → decB (encB m) = some m) →
      read_metadata decB (dumpBytes encB encP e) = Except.ok e.metadata) := by
  have hblock : ∀ decB (meta payload : List Nat), meta.length < 2 ^ 32 →
      read_metadata decB (u32be meta.length ++ meta ++ payload) =
        decodeOptionMeta decB meta := by
    intro decB meta payload hm
    have hsh : u32be meta.length ++ meta ++ payload =
        meta.length / 2 ^ 24 % 256 :: meta.length / 2 ^ 16 % 256 ::
          meta.length / 2 ^ 8 % 256 :: meta.length % 256 :: (meta ++ payload) := by
      simp [u32be]
    rw [hsh]
    simp only [read_metadata]
    rw [beToNat_u32be meta.length hm]
    have hlen : ¬ ((meta ++ payload).length < meta.length) := by
      simp [List.length_append]
    rw [if_neg hlen]
    congr 1
    exact List.take_left' rfl
  refine ⟨?_, hblock, ?_, ?_⟩
  · intro decB payload
    have h0 := hblock decB [] payload (by simp)
    simpa [decodeOptionMeta] using h0
  · intro encB m
    cases m <;> simp [encodeOptionMeta]
  · intro encB decB encP e hlen hround
    unfold dumpBytes
    rw [hblock decB _ _ hlen]
    cases hm : e.metadata with
    | none => simp [encodeOptionMeta, decodeOptionMeta]
    | some m => simp [encodeOptionMeta, decodeOptionMeta, hround m hm]

/-- C9 witness: the amended theorem applied to a concrete dumped engine with
no metadata yields an ok None metadata read. -/
theorem C9_witness :
    (encodeOptionMeta (fun _ => []) engA.metadata).length < 2 ^ 32 ∧
    read_metadata (fun _ => none) (dumpBytes (fun _ => []) (fun _ => []) engA) =
      Except.ok engA.metadata := by
  refine ⟨by decide, C9_read_metadata_amended.2.2.2 (fun _ => []) (fun _ => none)
    (fun _ => []) engA (by decide) ?_⟩
  intro m h
  have : engA.metadata = none := by decide
  rw [this] at h
  exact Option.noConfusion h

theorem capitals_buildStep_mem (cbc : Option (List (String × CountryRecordRaw)))
    (a1 a2 : Option (List (String × AdminDivision))) (st : BuildState)
    (r : CitiesRecordRaw) (k : String) (v : Nat)
    (h : (k, v) ∈ (buildStep cbc a1 a2 st r).capitals) :
    (k, v) ∈ st.capitals ∨ (r.feature_code = "PPLC" ∧ r.country_code = k) := by
  by_cases hex : r.feature_code ∈ excludedFeatureCodes
  · rw [buildStep, if_pos hex] at h
    exact Or.inl h
  · rw [buildStep, if_neg hex] at h
    simp only at h
    cases cbc with
    | none => exact Or.inl h
    | some m =>
        by_cases hc : r.feature_code = "PPLC"
        · simp only [if_pos hc] at h
          rcases mem_aupsert _ _ _ _ _ h with h2 | h2
          · exact Or.inr ⟨hc, h2.1.symm⟩
          · exact Or.inl h2
        · simp only [if_neg hc] at h
          exact Or.inl h

theorem capitals_foldl_mem (cbc : Option (List (String × CountryRecordRaw)))
    (a1 a2 : Option (List (String × AdminDivision))) (records : List CitiesRecordRaw) :
    ∀ (st : BuildState) (k : String) (v : Nat),
      (k, v) ∈ (records.foldl (buildStep cbc a1 a2) st).capitals →
      (k, v) ∈ st.capitals ∨ ∃ r ∈ records, r.feature_code = "PPLC" ∧ r.country_code = k := by
  induction records with
  | nil =>
      intro st k v h
      exact Or.inl h
  | cons r t ih =>
      intro st k v h
      rw [List.foldl_cons] at h
      rcases ih (buildStep cbc a1 a2 st r) k v h with h2 | h2
      · rcases capitals_buildStep_mem cbc a1 a2 st r k v h2 with h3 | h3
        · exact Or.inl h3
        · exact Or.inr ⟨r, List.mem_cons_self r t, h3⟩
      · obtain ⟨r2, hr2, hp⟩ := h2
        exact Or.inr ⟨r2, List.mem_cons_of_mem r hr2, hp⟩

/-- C7 counterexample: built from a source capital row whose country code is
lowercase, the capitals map stores the raw lowercase key, so the claimed
uppercase-key invariant fails and the capital is unreachable through the
case-normalising lookup. -/
theorem C7_counterexample :
    engD.capitals = [("ru", 1)] ∧ strUpper "ru" ≠ "ru" ∧
    engD.capital "ru" = none ∧ engD.capital "RU" = none := by
  exact ⟨by decide, by decide, by decide, by decide⟩

/-- C7 amended: capital and country_info lookups uppercase their argument
before the map lookup (so the query surface is case-insensitive in the
argument), but capitals keys are stored raw as they appear in the cities
source: every capitals key of a built index is the country_code of a PPLC
source row, uppercased only when the source data is uppercase. -/
theorem C7_capital_case_amended :
    (∀ (e : Engine) (c1 c2 : String), strUpper c1 = strUpper c2 →
      e.capital c1 = e.capital c2 ∧ e.country_info c1 = e.country_info c2) ∧
    (∀ records namesRows countriesRows admin1Rows admin2Rows
        (filter_languages : List String) (k : String) (v : Nat),
      (k, v) ∈ (buildEngine records namesRows countriesRows admin1Rows admin2Rows
        filter_languages).capitals →
      ∃ r ∈ records, r.feature_code = "PPLC" ∧ r.country_code = k) := by
  constructor
  · intro e c1 c2 h
    constructor
    · rw [Engine.capital, Engine.capital, h]
    · rw [Engine.country_info, Engine.country_info, h]
  · intro records namesRows countriesRows admin1Rows admin2Rows filter_languages k v h
    rw [buildEngine] at h
    simp only at h
    rcases capitals_foldl_mem _ _ _ records _ k v h with h2 | h2
    · exact absurd h2 (List.not_mem_nil _)
    · exact h2

/-- C7 witness: the amended theorem applied to the lowercase-capital engine
and two spellings of the same code. -/
theorem C7_witness :
    strUpper "ru" = strUpper "rU" ∧ engD.capital "ru" = engD.capital "rU" := by
  exact ⟨by decide, (C7_capital_case_amended.1 engD "ru" "rU" (by decide)).1⟩

theorem listStarts_nil (l : List Char) : listStarts l [] = true := by
  cases l <;> rfl

theorem entryScore_empty (jw : String → String → ℚ) (ent : Entry) :
    entryScore jw (strLower "") ent = 1 := by
  have h1 : strLower "" = "" := rfl
  rw [entryScore, h1]
  have h2 : strStarts ent.value "" = true := listStarts_nil ent.value.data
  rw [h2]
  rfl

/-- C5 counterexample: on a nonempty index, suggest with the empty pattern
returns a city (every stored value starts with the empty string and scores
1.0), not the empty list the claim states. -/
theorem C5_counterexample : engA.suggest jw0 "" 1 none none ≠ [] := by
  intro h
  exact absurd h (of_decide_eq_true (by with_unfolding_all rfl))

/-- C5 amended: query operations are total and never return an error, but
the empty pattern is a prefix of every stored value and scores 1.0, so
whenever the effective min_score is at most 1 the suggest result for the
empty pattern is empty exactly when the limit is zero or no entry resolves
to a city; otherwise up to limit cities are returned. -/
theorem C5_empty_pattern_amended (e : Engine) (jw : String → String → ℚ) (n : Nat)
    (s : Option ℚ) (hs : s.getD (4 / 5) ≤ 1) :
    (e.suggest jw "" n s none = [] ↔
      n = 0 ∨ ∀ ent ∈ e.entries, alookup e.geonames ent.id = none) := by
  by_cases hn : n = 0
  · simp [Engine.suggest, hn]
  · have hsb : suggestBase e jw (strLower "") (s.getD (4 / 5)) none =
        e.entries.filterMap fun ent =>
          (alookup e.geonames ent.id).map fun city => (city, (1 : ℚ)) := by
      simp only [suggestBase]
      congr 1
      funext item
      rw [entryScore_empty jw item, if_pos hs]
    simp only [Engine.suggest, if_neg hn, hsb]
    constructor
    · intro h
      by_contra hcon
      push_neg at hcon
      obtain ⟨-, ent, hent, hne⟩ := hcon
      obtain ⟨c, hc⟩ := Option.ne_none_iff_exists'.mp hne
      have hmem : (c, (1 : ℚ)) ∈ e.entries.filterMap fun ent =>
          (alookup e.geonames ent.id).map fun city => (city, (1 : ℚ)) :=
        List.mem_filterMap.mpr ⟨ent, hent, by rw [hc]; rfl⟩
      have hmem2 : (c, (1 : ℚ)) ∈ sortByLe suggestLe
          (e.entries.filterMap fun ent =>
            (alookup e.geonames ent.id).map fun city => (city, (1 : ℚ))) :=
        (mem_sortByLe _ _ _).mpr hmem
      obtain ⟨y, hy, -⟩ := uniqueBy_complete (fun item => item.1.id) [] _ _ hmem2
        (List.not_mem_nil _)
      rw [List.map_eq_nil_iff, List.take_eq_nil_iff] at h
      rcases h with h | h
      · exact hn h
      · rw [h] at hy
        exact List.not_mem_nil y hy
    · intro h
      rcases h with h | h
      · exact absurd h hn
      · have hb : (e.entries.filterMap fun ent =>
            (alookup e.geonames ent.id).map fun city => (city, (1 : ℚ))) = [] :=
          List.filterMap_eq_nil_iff.mpr fun ent hent => by rw [h ent hent]; rfl
        rw [hb]
        simp [sortByLe, uniqueBy]

/-- C5 witness: the amended theorem applied to the concrete one-city engine
with the default min_score. -/
theorem C5_witness :
    (Option.getD (none : Option ℚ) (4 / 5) ≤ 1) ∧
    (engA.suggest jw0 "" 1 none none = [] ↔
      1 = 0 ∨ ∀ ent ∈ engA.entries, alookup engA.geonames ent.id = none) :=
  ⟨of_decide_eq_true (by with_unfolding_all rfl), C5_empty_pattern_amended engA jw0 1 none
    (of_decide_eq_true (by with_unfolding_all rfl))⟩

/-- C10: country codes that do not resolve through country_info_by_code
after uppercasing are silently dropped from the suggest filter set, and if
no supplied code resolves the result is empty for every pattern, limit and
min_score. -/
theorem C10_unresolved_countries_dropped (e : Engine) (jw : String → String → ℚ)
    (p : String) (n : Nat) (s : Option ℚ) (cs : List String) :
    (e.suggest jw p n s (some cs) = e.suggest jw p n s
      (some (cs.filter fun code =>
        (alookup e.country_info_by_code (strUpper code)).isSome))) ∧
    ((∀ code ∈ cs, alookup e.country_info_by_code (strUpper code) = none) →
      e.suggest jw p n s (some cs) = []) := by
  have hres : resolveCountryIds e cs = resolveCountryIds e
      (cs.filter fun code => (alookup e.country_info_by_code (strUpper code)).isSome) := by
    rw [resolveCountryIds, resolveCountryIds,
      filterMap_filter_isSome (fun code =>
        (alookup e.country_info_by_code (strUpper code)).map (·.info.geonameid)) cs]
    congr 1
    exact List.filter_congr fun code _ => by
      cases alookup e.country_info_by_code (strUpper code) <;> rfl
  constructor
  · by_cases hn : n = 0
    · simp [Engine.suggest, hn]
    · have hbase : suggestBase e jw (strLower p) (s.getD (4 / 5)) (some cs) =
          suggestBase e jw (strLower p) (s.getD (4 / 5))
            (some (cs.filter fun code =>
              (alookup e.country_info_by_code (strUpper code)).isSome)) := by
        simp only [suggestBase, hres]
      simp only [Engine.suggest, if_neg hn, hbase]
  · intro h
    have hres0 : resolveCountryIds e cs = [] := by
      rw [resolveCountryIds]
      exact List.filterMap_eq_nil_iff.mpr fun code hc => by rw [h code hc]; rfl
    by_cases hn : n = 0
    · simp [Engine.suggest, hn]
    · have hb : suggestBase e jw (strLower p) (s.getD (4 / 5)) (some cs) = [] := by
        simp only [suggestBase, hres0]
        rw [List.filter_eq_nil_iff.mpr ?_]
        · rfl
        · intro ent _
          cases ent.country_id <;> simp
      simp only [Engine.suggest, if_neg hn, hb]
      simp [sortByLe, uniqueBy]

/-- C10 witness: a concrete engine whose country table lacks the supplied
code returns the empty list. -/
theorem C10_witness :
    (∀ code ∈ ["XX"], alookup engC.country_info_by_code (strUpper code) = none) ∧
    engC.suggest jw0 "gamma" 1 none (some ["XX"]) = [] :=
  ⟨of_decide_eq_true (by with_unfolding_all rfl),
    (C10_unresolved_countries_dropped engC jw0 "gamma" 1 none ["XX"]).2
      (of_decide_eq_true (by with_unfolding_all rfl))⟩

theorem qCmp_gt_iff (x y : ℚ) : qCmp x y = .gt ↔ y < x := by
  unfold qCmp
  rcases lt_trichotomy x y with h | h | h
  · rw [if_pos h]
    simp [asymm h]
  · subst h
    rw [if_neg (lt_irrefl x), if_pos rfl]
    simp
  · rw [if_neg (asymm h), if_neg (ne_of_gt h)]
    simp [h]

theorem natCmp_gt_iff (x y : Nat) : natCmp x y = .gt ↔ y < x := by
  unfold natCmp
  rcases Nat.lt_trichotomy x y with h | h | h
  · rw [if_pos h]
    simp
    omega
  · subst h
    rw [if_neg (lt_irrefl x), if_pos rfl]
    simp
  · rw [if_neg (by omega), if_neg (by omega)]
    simp [h]

theorem suggestLe_total (x y : CitiesRecord × ℚ) : suggestLe x y ∨ suggestLe y x := by
  unfold suggestLe suggestCmp
  by_cases h : |x.2 - y.2| < epsF32
  · have h2 : |y.2 - x.2| < epsF32 := by rwa [abs_sub_comm]
    rw [if_pos h, if_pos h2]
    by_cases hp : y.1.population < x.1.population
    · left
      simp only [decide_eq_true_eq]
      intro hcon
      rw [natCmp_gt_iff] at hcon
      omega
    · right
      simp only [decide_eq_true_eq]
      intro hcon
      rw [natCmp_gt_iff] at hcon
      omega
  · have h2 : ¬ |y.2 - x.2| < epsF32 := by rwa [abs_sub_comm]
    rw [if_neg h, if_neg h2]
    by_cases hq : x.2 < y.2
    · right
      simp only [decide_eq_true_eq]
      intro hcon
      rw [qCmp_gt_iff] at hcon
      exact absurd hq (asymm hcon)
    · left
      simp only [decide_eq_true_eq]
      intro hcon
      rw [qCmp_gt_iff] at hcon
      exact absurd hcon hq

theorem suggestBase_none_mem (e : Engine) (jw : String → String → ℚ)
    (np : String) (ms : ℚ) (pr : CitiesRecord × ℚ) :
    pr ∈ suggestBase e jw np ms none ↔ ∃ ent ∈ e.entries,
      ms ≤ entryScore jw np ent ∧ alookup e.geonames ent.id = some pr.1 ∧
      pr.2 = entryScore jw np ent := by
  simp only [suggestBase, List.mem_filterMap]
  constructor
  · rintro ⟨ent, hent, hf⟩
    by_cases h : ms ≤ entryScore jw np ent
    · rw [if_pos h] at hf
      obtain ⟨city, hc, heq⟩ := Option.map_eq_some'.mp hf
      refine ⟨ent, hent, h, ?_, ?_⟩
      · rw [hc, ← heq]
      · rw [← heq]
    · rw [if_neg h] at hf
      exact Option.noConfusion hf
  · rintro ⟨ent, hent, h, hlk, hsc⟩
    refine ⟨ent, hent, ?_⟩
    rw [if_pos h, hlk]
    obtain ⟨c, q⟩ := pr
    simp only at hlk hsc ⊢
    rw [hsc]
    rfl

/-- C1: suggest with limit 0 is empty; every returned city comes from an
entry scoring at least the effective min_score (default 0.8, prefix matches
scoring 1.0, others Jaro-Winkler); every qualifying entry's city id survives
into the deduplicated full result; the sorted stage is ordered by the
comparator (score descending, populations descending on epsilon-tied
scores); the returned city ids are pairwise distinct (dedup keeps the first
occurrence per id); and a positive limit truncates the full deduplicated
result to its first n elements. -/
theorem C1_suggest_spec (e : Engine) (jw : String → String → ℚ) (p : String)
    (n : Nat) (s : Option ℚ) :
    (e.suggest jw p 0 s none = []) ∧
    (∀ c ∈ e.suggest jw p n s none, ∃ ent ∈ e.entries,
      s.getD (4 / 5) ≤ entryScore jw (strLower p) ent ∧
      alookup e.geonames ent.id = some c) ∧
    (∀ ent ∈ e.entries, s.getD (4 / 5) ≤ entryScore jw (strLower p) ent →
      ∀ c, alookup e.geonames ent.id = some c →
        ∃ c2 ∈ suggestAll e jw p s none, c2.id = c.id) ∧
    List.Chain' (fun a b => suggestLe a b = true)
      (sortByLe suggestLe (suggestBase e jw (strLower p) (s.getD (4 / 5)) none)) ∧
    ((e.suggest jw p n s none).map (·.id)).Nodup ∧
    (0 < n → e.suggest jw p n s none = (suggestAll e jw p s none).take n) := by
  refine ⟨by simp [Engine.suggest], ?_, ?_, chain'_sortByLe _ suggestLe_total _, ?_, ?_⟩
  · intro c hc
    by_cases hn : n = 0
    · rw [hn] at hc
      simp [Engine.suggest] at hc
    · simp only [Engine.suggest, if_neg hn] at hc
      obtain ⟨pr, hpr, rfl⟩ := List.mem_map.mp hc
      have h1 : pr ∈ uniqueBy (fun item => item.1.id) []
          (sortByLe suggestLe (suggestBase e jw (strLower p) (s.getD (4 / 5)) none)) :=
        List.mem_of_mem_take hpr
      have h2 := (sublist_uniqueBy (fun item : CitiesRecord × ℚ => item.1.id) [] _).subset h1
      have h3 := (mem_sortByLe suggestLe pr _).mp h2
      obtain ⟨ent, hent, hsc, hlk, -⟩ := (suggestBase_none_mem e jw _ _ pr).mp h3
      exact ⟨ent, hent, hsc, hlk⟩
  · intro ent hent hsc c hlk
    have hmem : (c, entryScore jw (strLower p) ent) ∈
        suggestBase e jw (strLower p) (s.getD (4 / 5)) none :=
      (suggestBase_none_mem e jw _ _ _).mpr ⟨ent, hent, hsc, by simpa using hlk, rfl⟩
    have hmem2 := (mem_sortByLe suggestLe _ _).mpr hmem
    obtain ⟨y, hy, hkey⟩ := uniqueBy_complete (fun item : CitiesRecord × ℚ => item.1.id) [] _ _
      hmem2 (List.not_mem_nil _)
    exact ⟨y.1, List.mem_map_of_mem _ hy, hkey⟩
  · by_cases hn : n = 0
    · simp [Engine.suggest, hn]
    · simp only [Engine.suggest, if_neg hn]
      rw [List.map_map]
      have hcomp : ((fun c : CitiesRecord => c.id) ∘ fun pr : CitiesRecord × ℚ => pr.1) =
          fun item : CitiesRecord × ℚ => item.1.id := rfl
      rw [hcomp, List.map_take]
      exact List.Nodup.sublist (List.take_sublist n _)
        (nodup_keys_uniqueBy (fun item : CitiesRecord × ℚ => item.1.id) [] _)
  · intro hn
    simp only [Engine.suggest, suggestAll, if_neg (Nat.pos_iff_ne_zero.mp hn)]
    rw [List.map_take]

/-- C1 witness: the truncation clause applied to a concrete engine and
pattern at limit one. -/
theorem C1_witness :
    0 < 1 ∧ engA.suggest jw0 "foo" 1 none none = (suggestAll engA jw0 "foo" none none).take 1 :=
  ⟨Nat.zero_lt_one, (C1_suggest_spec engA jw0 "foo" 1 none).2.2.2.2.2 Nat.zero_lt_one⟩

theorem pairwise_filterMap_rel {A B : Type} (f : A → Option B) (R : A → A → Prop)
    (S : B → B → Prop) (hf : ∀ a b x y, f a = some x → f b = some y → R a b → S x y)
    (l : List A) (h : List.Pairwise R l) : List.Pairwise S (l.filterMap f) := by
  induction l with
  | nil => simp
  | cons a t ih =>
      obtain ⟨h1, h2⟩ := List.pairwise_cons.mp h
      cases hfa : f a with
      | none =>
          rw [List.filterMap_cons_none hfa]
          exact ih h2
      | some x =>
          rw [List.filterMap_cons_some hfa]
          refine List.pairwise_cons.mpr ⟨?_, ih h2⟩
          intro y hy
          obtain ⟨b, hb, hfb⟩ := List.mem_filterMap.mp hy
          exact hf a b x y hfa hfb (h1 b hb)

theorem pairwise_sortByLe {A : Type} (le : A → A → Bool)
    (htot : ∀ x y, le x y ∨ le y x)
    (htr : Transitive fun a b : A => le a b = true) (l : List A) :
    List.Pairwise (fun a b => le a b = true) (sortByLe le l) :=
  haveI : IsTrans A (fun a b => le a b = true) := ⟨htr⟩
  List.chain'_iff_pairwise.mp (chain'_sortByLe le htot l)

theorem nearestN_pairwise (tree : List (ℚ × ℚ)) (loc : ℚ × ℚ) (n : Nat) :
    List.Pairwise (fun a b : Nat × ℚ => a.2 ≤ b.2) (nearestN tree loc n) := by
  have h := pairwise_sortByLe (fun a b : Nat × ℚ => a.2 ≤ b.2)
    (fun x y => by
      rcases le_total x.2 y.2 with h | h
      · exact Or.inl (by simpa using h)
      · exact Or.inr (by simpa using h))
    (fun x y z hxy hyz => by
      simp only [decide_eq_true_eq] at hxy hyz ⊢
      exact le_trans hxy hyz)
    ((enumFrom 0 tree).map fun p => (p.1, sqDist p.2 loc))
  have h2 := List.Pairwise.sublist (List.take_sublist n _) h
  exact h2.imp fun hab => by simp only [decide_eq_true_eq] at hab; exact hab

theorem mem_nearestN (tree : List (ℚ × ℚ)) (loc : ℚ × ℚ) (n : Nat)
    (hit : Nat × ℚ) (h : hit ∈ nearestN tree loc n) :
    ∃ pt, tree.get? hit.1 = some pt ∧ hit.2 = sqDist pt loc := by
  have h1 := List.mem_of_mem_take h
  have h2 := (mem_sortByLe _ _ _).mp h1
  obtain ⟨p, hp, heq⟩ := List.mem_map.mp h2
  obtain ⟨-, hg⟩ := mem_enumFrom tree 0 p.1 p.2 (by
    obtain ⟨i, a⟩ := p
    exact hp)
  refine ⟨p.2, ?_, ?_⟩
  · rw [← heq]
    simpa using hg
  · rw [← heq]

theorem wf_map_self (l : List (Nat × CitiesRecord)) (h : ∀ p ∈ l, p.1 = p.2.id) :
    l.map (fun pr => (pr.2.id, pr.2)) = l := by
  induction l with
  | nil => rfl
  | cons p t ih =>
      obtain ⟨k, c⟩ := p
      have hk : k = c.id := h (k, c) (List.mem_cons_self _ _)
      simp only [List.map_cons, ih fun q hq => h q (List.mem_cons_of_mem _ hq)]
      rw [← hk]

theorem strictIncr_chain' : ∀ l : List Nat, strictIncr l = true →
    List.Chain' (fun a b => a < b) l
  | [], _ => List.chain'_nil
  | [_], _ => List.chain'_singleton _
  | a :: b :: t, h => by
      rw [strictIncr, Bool.and_eq_true, decide_eq_true_eq] at h
      exact List.chain'_cons.mpr ⟨h.1, strictIncr_chain' (b :: t) h.2⟩

theorem wf_ids_nodup (e : Engine) (hwf : EngineWF e) :
    ((e.geonames.map (fun pr => pr.2)).map (fun c => c.id)).Nodup := by
  have h1 := strictIncr_chain' _ hwf.2.1
  haveI : IsTrans Nat (fun a b => a < b) := ⟨fun _ _ _ => Nat.lt_trans⟩
  have h2 := List.chain'_iff_pairwise.mp h1
  rw [List.map_map]
  exact (h2.imp fun hab => Nat.ne_of_lt hab)

theorem wf_alookup_geonames (e : Engine) (hwf : EngineWF e) (pr : Nat × CitiesRecord)
    (hpr : pr ∈ e.geonames) : alookup e.geonames pr.2.id = some pr.2 := by
  have hrw : e.geonames = (e.geonames.map fun q => q.2).map fun c => (c.id, c) := by
    rw [List.map_map]
    exact (wf_map_self e.geonames hwf.1).symm
  rw [hrw]
  exact alookup_keyed_self (fun c => c.id) _ pr.2 (wf_ids_nodup e hwf)
    (List.mem_map_of_mem _ hpr)

theorem wf_hit_city (e : Engine) (hwf : EngineWF e) (idx gid : Nat)
    (city : CitiesRecord)
    (h1 : alookup e.tree_index_to_geonameid idx = some gid)
    (h2 : alookup e.geonames gid = some city) :
    e.tree.get? idx = some (city.latitude, city.longitude) := by
  rw [hwf.2.2.2] at h1
  have h3 := alookup_enumFrom_map (fun p : Nat × (Nat × CitiesRecord) => p.2.2.id)
    e.geonames 0 idx
  rw [Nat.zero_add] at h3
  rw [h3] at h1
  obtain ⟨pr, hget, hgid⟩ := Option.map_eq_some'.mp h1
  have hmem : pr ∈ e.geonames := List.get?_mem hget
  have h4 := wf_alookup_geonames e hwf pr hmem
  rw [hgid] at h4
  rw [h2] at h4
  have hcity : city = pr.2 := Option.some.inj h4
  rw [hwf.2.2.1]
  rw [List.get?_eq_getElem?, List.getElem?_map, ← List.get?_eq_getElem?, hget, hcity]
  rfl

theorem reverseHits_none_mem (e : Engine) (hits : List (Nat × ℚ))
    (pr : (Nat × ℚ) × CitiesRecord) (h : pr ∈ reverseHits e hits none) :
    pr.1 ∈ hits ∧ ∃ gid, alookup e.tree_index_to_geonameid pr.1.1 = some gid ∧
      alookup e.geonames gid = some pr.2 := by
  obtain ⟨hit, hhit, hf⟩ := List.mem_filterMap.mp h
  cases h1 : alookup e.tree_index_to_geonameid hit.1 with
  | none => rw [h1] at hf; exact Option.noConfusion hf
  | some gid =>
      rw [h1] at hf
      dsimp only at hf
      cases h2 : alookup e.geonames gid with
      | none =>
          rw [h2] at hf
          exact Option.noConfusion hf
      | some city =>
          rw [h2] at hf
          injection hf with hf
          rw [← hf]
          exact ⟨hhit, gid, h1, h2⟩

theorem reverseHits_none_elem_fst (e : Engine) (a : Nat × ℚ) (x : (Nat × ℚ) × CitiesRecord)
    (h : (match alookup e.tree_index_to_geonameid a.1 with
          | none => none
          | some geonameid =>
            match alookup e.geonames geonameid with
            | none => none
            | some city => some (a, city)) = some x) : x.1 = a := by
  cases h1 : alookup e.tree_index_to_geonameid a.1 with
  | none =>
      rw [h1] at h
      exact Option.noConfusion h
  | some gid =>
      rw [h1] at h
      dsimp only at h
      cases h2 : alookup e.geonames gid with
      | none =>
          rw [h2] at h
          exact Option.noConfusion h
      | some city =>
          rw [h2] at h
          injection h with h
          rw [← h]

theorem reverseHits_none_pairwise (e : Engine) (loc : ℚ × ℚ) (nl : Nat) :
    List.Pairwise (fun x y : (Nat × ℚ) × CitiesRecord => x.1.2 ≤ y.1.2)
      (reverseHits e (nearestN e.tree loc nl) none) := by
  have hp := pairwise_filterMap_rel
    (fun nearest : Nat × ℚ =>
      match alookup e.tree_index_to_geonameid nearest.1 with
      | none => none
      | some geonameid =>
        match alookup e.geonames geonameid with
        | none => none
        | some city => some (nearest, city))
    (fun a b : Nat × ℚ => a.2 ≤ b.2)
    (fun x y : (Nat × ℚ) × CitiesRecord => x.1.2 ≤ y.1.2)
    (fun a b x y hfa hfb hab => by
      have hx := reverseHits_none_elem_fst e a x hfa
      have hy := reverseHits_none_elem_fst e b y hfb
      show x.1.2 ≤ y.1.2
      rw [hx, hy]
      exact hab)
    (nearestN e.tree loc nl) (nearestN_pairwise e.tree loc nl)
  exact hp

theorem reverseHits_some_mem (e : Engine) (hits : List (Nat × ℚ)) (cs : List String)
    (pr : (Nat × ℚ) × CitiesRecord) (h : pr ∈ reverseHits e hits (some cs)) :
    ∃ ctry, pr.2.country = some ctry ∧ ctry.code ∈ cs.map strUpper := by
  obtain ⟨hit, hhit, hf⟩ := List.mem_filterMap.mp h
  cases h1 : alookup e.tree_index_to_geonameid hit.1 with
  | none =>
      rw [h1] at hf
      exact Option.noConfusion hf
  | some gid =>
      rw [h1] at hf
      dsimp only at hf
      cases h2 : alookup e.geonames gid with
      | none =>
          rw [h2] at hf
          exact Option.noConfusion hf
      | some city =>
          rw [h2] at hf
          dsimp only at hf
          cases h3 : city.country with
          | none =>
              rw [h3] at hf
              exact Option.noConfusion hf
          | some ctry =>
              rw [h3] at hf
              dsimp only at hf
              by_cases h4 : ctry.code ∈ cs.map strUpper
              · rw [if_pos h4] at hf
                injection hf with hf
                rw [← hf]
                exact ⟨ctry, h3, h4⟩
              · rw [if_neg h4] at hf
                exact Option.noConfusion hf

/-- C2: reverse with limit 0 returns none; without k every returned item is
scored by its squared Euclidean distance from the query point in (lat, lng)
space, the items are in non-decreasing distance order and at most limit are
returned; with k the first limit mapped hits in tree order are kept, scored
distance minus k times population, and sorted ascending by that score. -/
theorem C2_reverse_spec (e : Engine) (loc : ℚ × ℚ) (limit : Nat) (k : Option ℚ)
    (c : Option (List String)) (hwf : EngineWF e) :
    (e.reverse loc 0 k c = none) ∧
    (∀ items, e.reverse loc limit none none = some items →
      items.length ≤ limit ∧
      (∀ it ∈ items, it.score = it.distance ∧
        it.distance = sqDist (it.city.latitude, it.city.longitude) loc) ∧
      List.Pairwise (fun a b : ReverseItem => a.distance ≤ b.distance) items) ∧
    (∀ kv items, e.reverse loc limit (some kv) none = some items →
      items.length ≤ limit ∧
      (∀ it ∈ items, it.score = it.distance - kv * (it.city.population : ℚ)) ∧
      List.Pairwise (fun a b : ReverseItem => a.score ≤ b.score) items ∧
      List.Perm items (((reverseHits e (nearestN e.tree loc limit) none).map fun item =>
        ({ distance := item.1.2, score := item.1.2 - kv * (item.2.population : ℚ),
           city := item.2 } : ReverseItem)).take limit)) := by
  refine ⟨by simp [Engine.reverse], ?_, ?_⟩
  · intro items heq
    by_cases hl : limit = 0
    · rw [hl] at heq
      simp [Engine.reverse] at heq
    · simp only [Engine.reverse, if_neg hl] at heq
      injection heq with heq
      subst heq
      refine ⟨List.length_take_le _ _, ?_, ?_⟩
      · intro it hit
        obtain ⟨pr, hpr, heq2⟩ := List.mem_map.mp (List.mem_of_mem_take hit)
        subst heq2
        refine ⟨rfl, ?_⟩
        obtain ⟨hhits, gid, hg1, hg2⟩ := reverseHits_none_mem e _ pr hpr
        obtain ⟨pt, hpt, hd⟩ := mem_nearestN e.tree loc limit pr.1 hhits
        have hcity := wf_hit_city e hwf pr.1.1 gid pr.2 hg1 hg2
        rw [hpt] at hcity
        have hpt2 := Option.some.inj hcity
        show pr.1.2 = sqDist (pr.2.latitude, pr.2.longitude) loc
        rw [hd, hpt2]
      · exact List.Pairwise.sublist (List.take_sublist _ _)
          (List.pairwise_map.mpr (reverseHits_none_pairwise e loc limit))
  · intro kv items heq
    by_cases hl : limit = 0
    · rw [hl] at heq
      simp [Engine.reverse] at heq
    · simp only [Engine.reverse, if_neg hl] at heq
      injection heq with heq
      subst heq
      refine ⟨?_, ?_, ?_, ?_⟩
      · rw [List.length_map, (perm_sortByLe _ _).length_eq]
        exact List.length_take_le _ _
      · intro it hit
        obtain ⟨pr, hpr, heq2⟩ := List.mem_map.mp hit
        have h1 := (mem_sortByLe _ _ _).mp hpr
        obtain ⟨q, hq, htri⟩ := List.mem_map.mp (List.mem_of_mem_take h1)
        subst heq2
        rw [← htri]
      · have hp := pairwise_sortByLe
          (fun a b : ℚ × ℚ × CitiesRecord => a.2.1 ≤ b.2.1)
          (fun x y => by
            rcases le_total x.2.1 y.2.1 with h | h
            · exact Or.inl (by simpa using h)
            · exact Or.inr (by simpa using h))
          (fun x y z hxy hyz => by
            simp only [decide_eq_true_eq] at hxy hyz ⊢
            exact le_trans hxy hyz)
        refine List.pairwise_map.mpr ((hp _).imp ?_)
        intro a b hab
        simpa using hab
      · refine List.Perm.trans (List.Perm.map _ (perm_sortByLe _ _)) ?_
        rw [List.map_take, List.map_map]
        exact List.Perm.refl _

/-- C2 witness: the no-k clause applied to the two-city engine at a concrete
query point, with the concrete result list. -/
theorem C2_witness :
    EngineWF engB ∧
    engB.reverse (9, 9) 2 none none =
      some [⟨cityBeta, 2, 2⟩, ⟨cityAlpha, 162, 162⟩] ∧
    ([⟨cityBeta, 2, 2⟩, ⟨cityAlpha, 162, 162⟩] : List ReverseItem).length ≤ 2 ∧
    List.Pairwise (fun a b : ReverseItem => a.distance ≤ b.distance)
      ([⟨cityBeta, 2, 2⟩, ⟨cityAlpha, 162, 162⟩] : List ReverseItem) := by
  have hwf : EngineWF engB := of_decide_eq_true (by with_unfolding_all rfl)
  have he : engB.reverse (9, 9) 2 none none =
      some [⟨cityBeta, 2, 2⟩, ⟨cityAlpha, 162, 162⟩] :=
    of_decide_eq_true (by with_unfolding_all rfl)
  have h := (C2_reverse_spec engB (9, 9) 2 none none hwf).2.1 _ he
  exact ⟨hwf, he, h.1, h.2.2⟩

theorem enumFrom_map {A B : Type} (f : A → B) (l : List A) :
    ∀ i, enumFrom i (l.map f) = (enumFrom i l).map fun p => (p.1, f p.2) := by
  induction l with
  | nil => intro i; rfl
  | cons a t ih =>
      intro i
      simp only [List.map_cons, enumFrom, ih (i + 1)]

theorem chain'_strictIncr : ∀ l : List Nat, List.Chain' (fun a b => a < b) l →
    strictIncr l = true
  | [], _ => rfl
  | [_], _ => rfl
  | a :: b :: t, h => by
      rw [strictIncr, Bool.and_eq_true, decide_eq_true_eq]
      exact ⟨(List.chain'_cons.mp h).1, chain'_strictIncr (b :: t) (List.chain'_cons.mp h).2⟩

theorem engineOfDump_dumpOfEngine (e : Engine) (hwf : EngineWF e) :
    engineOfDump (dumpOfEngine e) = e := by
  have h2 : List.Chain' (fun a b : Nat × CitiesRecord => a.2.id < b.2.id) e.geonames := by
    have h := strictIncr_chain' _ hwf.2.1
    exact (List.chain'_map (fun p : Nat × CitiesRecord => p.2.id)).mp h
  
  have h3 := hwf.2.2.1
  have h4 := hwf.2.2.2
  obtain ⟨entries, geonames, capitals, cibc, md, timap, tree⟩ := e
  simp only at h2 h3 h4
  simp only [engineOfDump, dumpOfEngine, Engine.mk.injEq, true_and, and_true]
  have hitems : dedupAdjBy (fun p : Nat × (ℚ × ℚ) => p.1)
      (sortByLe (fun a b : Nat × (ℚ × ℚ) => a.1 ≤ b.1)
        (geonames.map fun p => (p.2.id, (p.2.latitude, p.2.longitude)))) =
      geonames.map fun p => (p.2.id, (p.2.latitude, p.2.longitude)) := by
    have hchain : List.Chain' (fun a b : Nat × (ℚ × ℚ) => a.1 < b.1)
        (geonames.map fun p => (p.2.id, (p.2.latitude, p.2.longitude))) := by
      rw [List.chain'_map]
      exact h2
    rw [sortByLe_eq_self _ _ (hchain.imp fun hab => by
      simp only [decide_eq_true_eq]
      omega)]
    exact dedupAdjBy_eq_self _ _ hchain
  refine ⟨?_, ?_⟩
  · rw [hitems, h4, enumFrom_map, List.map_map]
    rfl
  · rw [hitems, h3, List.map_map]
    rfl

theorem buildEngine_wf (records : List CitiesRecordRaw)
    (namesRows : Option (List AlternateNamesRaw))
    (countriesRows : Option (List CountryRecordRaw))
    (admin1Rows admin2Rows : Option (List AdminCodeRecordRaw))
    (filter_languages : List String) :
    EngineWF (buildEngine records namesRows countriesRows admin1Rows admin2Rows
      filter_languages) := by
  simp only [buildEngine]
  have hchain : ∀ l : List CitiesRecord,
      List.Chain' (fun a b : CitiesRecord => a.id < b.id)
        (dedupAdjBy (fun c => c.id) (sortByLe (fun a b => a.id ≤ b.id) l)) := by
    intro l
    apply chain'_lt_dedupAdjBy
    have h := chain'_sortByLe (fun a b : CitiesRecord => a.id ≤ b.id)
      (fun x y => by
        rcases Nat.le_total x.id y.id with h | h
        · exact Or.inl (by simpa using h)
        · exact Or.inr (by simpa using h)) l
    exact h.imp fun hab => by simpa using hab
  refine ⟨?_, ?_, ?_, ?_⟩
  · intro p hp
    obtain ⟨c, -, heq⟩ := List.mem_map.mp hp
    rw [← heq]
  · rw [List.map_map]
    apply chain'_strictIncr
    have h := hchain (records.foldl (buildStep (countriesRows.map countryByCode)
      (admin1Rows.map adminByCode) (admin2Rows.map adminByCode))
      { entries := [], geonames := [], capitals := [],
        names_by_id := namesRows.map fun rows =>
          namesById (records.map (·.geonameid))
            (((countriesRows.map countryByCode).getD []).map (·.2.geonameid))
            (((admin1Rows.map adminByCode).getD []).map (·.2.id))
            (((admin2Rows.map adminByCode).getD []).map (·.2.id))
            filter_languages rows }).geonames
    have h2 := (List.chain'_map (fun c : CitiesRecord => c.id)).mpr h
    exact h2
  · rw [List.map_map]
    rfl
  · rw [enumFrom_map, List.map_map]
    rfl

/-- C3: round-trip storage. Dumping a built engine and rebuilding it from
the dump yields structurally the same engine, hence the same answers for
get, capital, country_info, suggest and reverse on every input. -/
theorem C3_roundtrip_identity (records : List CitiesRecordRaw)
    (namesRows : Option (List AlternateNamesRaw))
    (countriesRows : Option (List CountryRecordRaw))
    (admin1Rows admin2Rows : Option (List AdminCodeRecordRaw))
    (filter_languages : List String) :
    engineOfDump (dumpOfEngine (buildEngine records namesRows countriesRows
      admin1Rows admin2Rows filter_languages)) =
      buildEngine records namesRows countriesRows admin1Rows admin2Rows
        filter_languages ∧
    (∀ id, (engineOfDump (dumpOfEngine (buildEngine records namesRows countriesRows
      admin1Rows admin2Rows filter_languages))).get id =
      (buildEngine records namesRows countriesRows admin1Rows admin2Rows
        filter_languages).get id) ∧
    (∀ code, (engineOfDump (dumpOfEngine (buildEngine records namesRows countriesRows
      admin1Rows admin2Rows filter_languages))).capital code =
      (buildEngine records namesRows countriesRows admin1Rows admin2Rows
        filter_languages).capital code) ∧
    (∀ code, (engineOfDump (dumpOfEngine (buildEngine records namesRows countriesRows
      admin1Rows admin2Rows filter_languages))).country_info code =
      (buildEngine records namesRows countriesRows admin1Rows admin2Rows
        filter_languages).country_info code) ∧
    (∀ jw p n s c, (engineOfDump (dumpOfEngine (buildEngine records namesRows
      countriesRows admin1Rows admin2Rows filter_languages))).suggest jw p n s c =
      (buildEngine records namesRows countriesRows admin1Rows admin2Rows
        filter_languages).suggest jw p n s c) ∧
    (∀ loc n k c, (engineOfDump (dumpOfEngine (buildEngine records namesRows
      countriesRows admin1Rows admin2Rows filter_languages))).reverse loc n k c =
      (buildEngine records namesRows countriesRows admin1Rows admin2Rows
        filter_languages).reverse loc n k c) := by
  have heq := engineOfDump_dumpOfEngine _
    (buildEngine_wf records namesRows countriesRows admin1Rows admin2Rows
      filter_languages)
  exact ⟨heq, fun _ => by rw [heq], fun _ => by rw [heq], fun _ => by rw [heq],
    fun _ _ _ _ _ => by rw [heq], fun _ _ _ _ => by rw [heq]⟩

theorem suggestBase_some_mem (e : Engine) (jw : String → String → ℚ)
    (np : String) (ms : ℚ) (cs : List String) (pr : CitiesRecord × ℚ)
    (h : pr ∈ suggestBase e jw np ms (some cs)) :
    ∃ ent ∈ e.entries,
      (∃ cid, ent.country_id = some cid ∧ cid ∈ resolveCountryIds e cs) ∧
      ms ≤ entryScore jw np ent ∧ alookup e.geonames ent.id = some pr.1 := by
  simp only [suggestBase, List.mem_filterMap] at h
  obtain ⟨ent, hentF, hf⟩ := h
  obtain ⟨hentE, hcond⟩ := List.mem_filter.mp hentF
  cases hcid : ent.country_id with
  | none =>
      rw [hcid] at hcond
      exact absurd hcond (by simp)
  | some cid =>
      rw [hcid] at hcond
      dsimp only at hcond
      rw [decide_eq_true_eq] at hcond
      by_cases hsc : ms ≤ entryScore jw np ent
      · rw [if_pos hsc] at hf
        obtain ⟨city, hc, heq⟩ := Option.map_eq_some'.mp hf
        refine ⟨ent, hentE, ⟨cid, hcid, hcond⟩, hsc, ?_⟩
        rw [hc, ← heq]
      · rw [if_neg hsc] at hf
        exact Option.noConfusion hf

/-- C4: with a country filter, every city returned by suggest or reverse
carries a country whose ISO code is the uppercased form of one of the
supplied codes (membership up to letter case); in suggest, returned cities
arise only from entries whose country id resolved through
country_info_by_code. The suggest half uses the engine coherence invariants
(entries and cities of one row share one country; country geoname ids are
unique per ISO key), which hold for built engines on GeoNames data. -/
theorem C4_country_filter (e : Engine) (jw : String → String → ℚ) (p : String)
    (n : Nat) (s : Option ℚ) (loc : ℚ × ℚ) (lim : Nat) (k : Option ℚ)
    (cs : List String) (h1 : suggestCountryCoherent e) (h2 : countryIdsInjective e) :
    (∀ x ∈ e.suggest jw p n s (some cs), ∃ ctry, x.country = some ctry ∧
      ∃ code ∈ cs, ctry.code = strUpper code) ∧
    (∀ items, e.reverse loc lim k (some cs) = some items →
      ∀ it ∈ items, ∃ ctry, it.city.country = some ctry ∧
        ∃ code ∈ cs, ctry.code = strUpper code) := by
  constructor
  · intro x hx
    by_cases hn : n = 0
    · rw [hn] at hx
      simp [Engine.suggest] at hx
    · simp only [Engine.suggest, if_neg hn] at hx
      obtain ⟨pr, hpr, rfl⟩ := List.mem_map.mp hx
      have hu := (sublist_uniqueBy (fun item : CitiesRecord × ℚ => item.1.id) [] _).subset
        (List.mem_of_mem_take hpr)
      have hb := (mem_sortByLe suggestLe pr _).mp hu
      obtain ⟨ent, hentE, ⟨cid, hcid, hcidMem⟩, -, hlk⟩ :=
        suggestBase_some_mem e jw _ _ cs pr hb
      have hco := h1 ent hentE cid (by simp [Option.mem_def, hcid]) pr.1
        (by simp [Option.mem_def, hlk])
      obtain ⟨ctry, hctryT, kr, hkrMem, hkgid, hkcode⟩ := hco
      have hctry : pr.1.country = some ctry := by
        rwa [Option.mem_toList, Option.mem_def] at hctryT
      rw [resolveCountryIds] at hcidMem
      obtain ⟨code, hcodeMem, hg⟩ := List.mem_filterMap.mp hcidMem
      obtain ⟨rec2, halk, hgid2⟩ := Option.map_eq_some'.mp hg
      have hkr2Mem := alookup_mem halk
      have hkey := h2 kr hkrMem (strUpper code, rec2) hkr2Mem (by rw [hkgid, ← hgid2])
      exact ⟨ctry, hctry, code, hcodeMem, by rw [hkcode, hkey]⟩
  · intro items hrev it hit
    by_cases hl : lim = 0
    · rw [hl] at hrev
      simp [Engine.reverse] at hrev
    · by_cases hg : e.geonames.length = 0
      · simp only [Engine.reverse, if_neg hl, if_pos hg] at hrev
        exact Option.noConfusion hrev
      · cases k with
        | none =>
            simp only [Engine.reverse, if_neg hl, if_neg hg] at hrev
            injection hrev with hrev
            subst hrev
            obtain ⟨pr, hpr, heq⟩ := List.mem_map.mp (List.mem_of_mem_take hit)
            obtain ⟨ctry, hc, hcode⟩ := reverseHits_some_mem e _ cs pr hpr
            obtain ⟨code, hcodeMem, hcodeEq⟩ := List.mem_map.mp hcode
            refine ⟨ctry, ?_, code, hcodeMem, hcodeEq.symm⟩
            rw [← heq]
            exact hc
        | some kv =>
            simp only [Engine.reverse, if_neg hl, if_neg hg] at hrev
            injection hrev with hrev
            subst hrev
            obtain ⟨q, hq, heq⟩ := List.mem_map.mp hit
            have hq2 := (mem_sortByLe _ _ _).mp hq
            obtain ⟨pr, hpr, htri⟩ := List.mem_map.mp (List.mem_of_mem_take hq2)
            obtain ⟨ctry, hc, hcode⟩ := reverseHits_some_mem e _ cs pr hpr
            obtain ⟨code, hcodeMem, hcodeEq⟩ := List.mem_map.mp hcode
            refine ⟨ctry, ?_, code, hcodeMem, hcodeEq.symm⟩
            rw [← heq, ← htri]
            exact hc

/-- C4 witness: the suggest clause applied to a one-city engine with a
country table, filtered by a lowercase country code. -/
theorem C4_witness :
    suggestCountryCoherent engC ∧ countryIdsInjective engC ∧
    ∀ x ∈ engC.suggest jw0 "gamma" 1 none (some ["ru"]),
      ∃ ctry, x.country = some ctry ∧ ∃ code ∈ ["ru"], ctry.code = strUpper code := by
  have hco : suggestCountryCoherent engC := of_decide_eq_true (by with_unfolding_all rfl)
  have hinj : countryIdsInjective engC := of_decide_eq_true (by with_unfolding_all rfl)
  exact ⟨hco, hinj,
    (C4_country_filter engC jw0 "gamma" 1 none (0, 0) 1 none ["ru"] hco hinj).1⟩
